import Mathlib

/-!
# Verification of the toy SSA-block optimizer (`src/main.py`)

Shallow embedding of the one-file Python program: a union-find based value
forwarding mechanism (`Operation.find` / `make_equal_to`), a `Block` of
operations, a parity abstract domain (`Parity`), a reference interpreter
(`interp`) and the optimization pass (`simplify`).

Modelling choices:
* An `Operation` object is identified by its index (`Nat`) into an arena
  (`Heap`, a list of `OpNode`).  A `Value` is either a `Constant` (the program
  only ever stores machine integers in constants, embedded as `Int`, matching
  Python's arbitrary-precision integers) or a reference to an `Operation`.
  Python's `Constant.__eq__` compares by value and `Operation` equality is
  object identity; both coincide with equality of the `Value` type.
* The mutable `forwarded` pointers are threaded explicitly as an association
  list `Fwd` from operation id to its forwarding target (absent = `None`).
  `Operation.find`, a while loop in the source, becomes a fuel-based
  recursion; `fwd.length + 1` steps are enough to reach the representative
  whenever the forwarding graph is acyclic (the only situation where the
  Python loop terminates at all).
* Python exceptions (the failed `assert` in `Constant._set_forwarded`, the
  `AttributeError` of `getattr(Parity, op.name)` on an unregistered
  operation, `KeyError` on dict lookups, `IndexError`/`ValueError` in the
  interpreter) are all embedded as `none` of an `Option` result.
-/

/-- The operation names for which `Block` has a builder (`src/main.py`
lines 103-108). -/
inductive OpName
  | add
  | mul
  | getarg
  | dummy
  | lshift
  | bitand
deriving DecidableEq, Repr

/-- A `Value`: either `Constant(value)` or a reference to an `Operation`
object, identified by its arena index. -/
inductive Value
  | constant (value : Int)
  | operation (id : Nat)
deriving DecidableEq, Repr

/-- The immutable part of an `Operation` object: its `name` and the raw
constructor-time argument list `_args` (`src/main.py` lines 15-18). -/
structure OpNode where
  name : OpName
  args : List Value
deriving DecidableEq, Repr

/-- The arena of all `Operation` objects ever constructed. -/
abbrev Heap := List OpNode

/-- The mutable `forwarded` fields: an association list mapping an operation
id to its forwarding target.  An id that is absent has `forwarded = None`. -/
abbrev Fwd := List (Nat × Value)

/-- Reading the `forwarded` field of operation `i`. -/
def lookupFwd : Fwd → Nat → Option Value
  | [], _ => none
  | (j, t) :: rest, i => if i = j then some t else lookupFwd rest i

/-- The loop body of `Operation.find` (`src/main.py` lines 23-34): follow
`forwarded` while the current value is an `Operation` whose pointer is set.
The source's `while` loop is embedded with explicit fuel. -/
def findAux (fwd : Fwd) : Nat → Value → Value
  | _, .constant c => .constant c
  | 0, v => v
  | fuel + 1, .operation i =>
    match lookupFwd fwd i with
    | none => .operation i
    | some t => findAux fwd fuel t

/-- `Value.find()`: `fwd.length + 1` fuel always suffices to reach the
representative when the forwarding graph is acyclic (each extra step
consumes one distinct forwarded entry). -/
def findV (fwd : Fwd) (v : Value) : Value :=
  findAux fwd (fwd.length + 1) v

/-- `Operation.make_equal_to` / `Constant._set_forwarded`
(`src/main.py` lines 45-56 and 77-82): forward `self.find()` to `value`.
If the representative is a `Constant`, the source asserts that `value` is a
`Constant` with the same payload (a failed assert is `none`). -/
def makeEqualTo (fwd : Fwd) (i : Nat) (value : Value) : Option Fwd :=
  match findV fwd (.operation i) with
  | .operation j => some ((j, value) :: fwd)
  | .constant c =>
    match value with
    | .constant c' => if c' = c then some fwd else none
    | _ => none

/-- The parity lattice (`src/main.py` lines 139-181): the four singletons
`TOP`, `EVEN`, `ODD`, `BOTTOM`.  Python's `is` comparisons on the
singletons are equality here. -/
inductive Parity
  | top
  | even
  | odd
  | bottom
deriving DecidableEq, Repr

/-- `Parity.const` (`src/main.py` lines 146-151): the parity of a constant,
computed from its payload.  Python's `%` on ints agrees with `Int.emod`. -/
def Parity.const (value : Int) : Parity :=
  if value % 2 = 0 then .even else .odd

/-- `Parity.getarg` (`src/main.py` lines 153-154). -/
def Parity.getarg (_self : Parity) : Parity := .top

/-- `Parity.dummy` (`src/main.py` lines 156-157). -/
def Parity.dummy (_self : Parity) : Parity := .top

/-- `Parity.add` (`src/main.py` lines 159-168). -/
def Parity.add (self other : Parity) : Parity :=
  if self = .bottom ∨ other = .bottom then .bottom
  else if self = .top ∨ other = .top then .top
  else if self = .even ∧ other = .even then .even
  else if self = .odd ∧ other = .odd then .even
  else .odd

/-- `Parity.lshift` (`src/main.py` lines 170-175). -/
def Parity.lshift (self other : Parity) : Parity :=
  if self = .bottom ∨ other = .bottom then .bottom
  else if other = .odd then .even
  else .top

/-- `transfer = getattr(Parity, op.name)` followed by `transfer(*args)`
(`src/main.py` lines 246-248).  `Parity` has no `mul` or `bitand` method,
so `getattr` raises `AttributeError` for them (no third argument supplies a
default); calling a method with the wrong number of arguments raises
`TypeError`.  Both failures are embedded as `none`. -/
def transfer : OpName → List Parity → Option Parity
  | .getarg, [a] => some (Parity.getarg a)
  | .dummy, [a] => some (Parity.dummy a)
  | .add, [a, b] => some (Parity.add a b)
  | .lshift, [a, b] => some (Parity.lshift a b)
  | _, _ => none

/-- `parity_of` (`src/main.py` lines 218-221): a `Constant`'s parity comes
from its payload, an `Operation`'s from the `parity` dict (a missing key,
Python's `KeyError`, is `none`). -/
def parityOf (parity : Nat → Option Parity) : Value → Option Parity
  | .constant c => some (Parity.const c)
  | .operation i => parity i

/-- The mutable state of one `simplify` call: the shared forwarding
pointers, the `parity` dict, the `cse` dict and the `result` block being
built (`src/main.py` lines 215-223). -/
structure SState where
  fwd : Fwd
  parity : Nat → Option Parity
  cse : List ((OpName × List Value) × Nat)
  result : List Nat

/-- Lookup in the `cse` dict; keys are `(op.name, tuple(op.args))` with
`op.args` the *resolved* arguments. -/
def lookupCSE : List ((OpName × List Value) × Nat) → (OpName × List Value) → Option Nat
  | [], _ => none
  | (k', j) :: rest, k => if k = k' then some j else lookupCSE rest k

/-- The `match op` simplification phase of `simplify` (`src/main.py` lines
231-241), operating on the resolved arguments (Python's `__match_args__`
exposes the resolved `args` property).  Returns
`some (some target)` when the instruction is forwarded to `target`,
`some none` when no rewrite fires (fall through to emission), and `none`
when `parity_of` raises.  The `bitand` alternatives are tried in source
order: `[arg, Constant(1)]` before `[Constant(1), arg]`. -/
def bitandArg : List Value → Option Value
  | [a, .constant 1] => some a
  | [.constant 1, a] => some a
  | _ => none

def trySimplify (parity : Nat → Option Parity) (name : OpName) (rargs : List Value) :
    Option (Option Value) :=
  match name, bitandArg rargs with
  | .bitand, some arg => do
    let p ← parityOf parity arg
    if p = .even then pure (some (.constant 0))
    else if p = .odd then pure (some (.constant 1))
    else pure none
  | _, _ =>
    match name, rargs with
    | .add, [.constant l, .constant r] => some (some (.constant (l + r)))
    | _, _ => some none

/-- One iteration of the `for op in block` loop of `simplify`
(`src/main.py` lines 224-248): CSE lookup, then pattern simplification,
then emission + CSE registration + abstract analysis. -/
def step (heap : Heap) (s : SState) (i : Nat) : Option SState :=
  match heap[i]? with
  | none => none
  | some nd =>
    -- `op.args`: each raw argument resolved through `find`
    let rargs := nd.args.map (findV s.fwd)
    let key := (nd.name, rargs)
    match lookupCSE s.cse key with
    | some prev =>
      -- CSE hit: forward to the earlier instruction and skip emission
      match makeEqualTo s.fwd i (.operation prev) with
      | none => none
      | some fwd' => some { s with fwd := fwd' }
    | none =>
      match trySimplify s.parity nd.name rargs with
      | none => none
      | some (some target) =>
        match makeEqualTo s.fwd i target with
        | none => none
        | some fwd' => some { s with fwd := fwd' }
      | some none =>
        -- Emit, register for CSE, then analyze
        match nd.args.map (findV s.fwd) |>.mapM (parityOf s.parity) with
        | none => none
        | some argps =>
          match transfer nd.name argps with
          | none => none
          | some p =>
            some { fwd := s.fwd
                   parity := fun j => if j = i then some p else s.parity j
                   cse := (key, i) :: s.cse
                   result := s.result ++ [i] }

/-- The `for op in block` loop of `simplify`. -/
def runSimplify (heap : Heap) : SState → List Nat → Option SState
  | s, [] => some s
  | s, i :: rest =>
    match step heap s i with
    | none => none
    | some s' => runSimplify heap s' rest

/-- Initial state of a `simplify` call: `parity = {v: BOTTOM for v in
block}`, empty `cse`, empty `result`, and the ambient forwarding state
`fwd0` of the argument block's nodes (a freshly built block has `fwd0 =
[]`). -/
def initState (fwd0 : Fwd) (block : List Nat) : SState :=
  { fwd := fwd0
    parity := fun i => if i ∈ block then some .bottom else none
    cse := []
    result := [] }

/-- `simplify` (`src/main.py` lines 214-249): returns the new block
together with the final forwarding state of the mutated nodes; `none`
embeds an uncaught Python exception. -/
def simplify (heap : Heap) (fwd0 : Fwd) (block : List Nat) : Option (List Nat × Fwd) :=
  match runSimplify heap (initState fwd0 block) block with
  | none => none
  | some s => some (s.result, s.fwd)

/-! ## The reference interpreter (`src/main.py` lines 193-211) -/

/-- Python list indexing `args[index]`, including negative indices. -/
def pyIndex (args : List Int) (i : Int) : Option Int :=
  if 0 ≤ i then args[i.toNat]?
  else if 0 ≤ (args.length : Int) + i then args[((args.length : Int) + i).toNat]?
  else none

/-- Python `a << b`: raises `ValueError` on a negative shift amount,
otherwise multiplies by `2 ** b`. -/
def pyLshift (a b : Int) : Option Int :=
  if b < 0 then none else some (a * 2 ^ b.toNat)

/-- Python `a & b` on (arbitrary-precision, two's-complement) integers. -/
def pyAnd (a b : Int) : Int := Int.land a b

/-- `value_of` (`src/main.py` lines 195-198): a missing `values` key is a
`KeyError`. -/
def valueOf (values : Nat → Option Int) : Value → Option Int
  | .constant c => some c
  | .operation j => values j

/-- One iteration of the `for op in block` loop of `interp`: the `match`
statement destructures `op` through `__match_args__ = ("name", "args")`,
i.e. against the *resolved* argument tuple.  An instruction matching no
case is silently skipped (its `values` entry is simply never written). -/
def interpOp (fwd : Fwd) (args : List Int) (values : Nat → Option Int) (i : Nat)
    (nd : OpNode) : Option (Nat → Option Int) :=
  match nd.name, nd.args.map (findV fwd) with
  | .getarg, [.constant index] =>
    match pyIndex args index with
    | none => none
    | some v => some (fun j => if j = i then some v else values j)
  | .add, [a, b] =>
    match valueOf values a, valueOf values b with
    | some va, some vb => some (fun j => if j = i then some (va + vb) else values j)
    | _, _ => none
  | .lshift, [a, b] =>
    match valueOf values a, valueOf values b with
    | some va, some vb =>
      match pyLshift va vb with
      | none => none
      | some v => some (fun j => if j = i then some v else values j)
    | _, _ => none
  | .bitand, [a, b] =>
    match valueOf values a, valueOf values b with
    | some va, some vb => some (fun j => if j = i then some (pyAnd va vb) else values j)
    | _, _ => none
  | .dummy, [a] =>
    match valueOf values a with
    | some va => some (fun j => if j = i then some va else values j)
    | none => none
  | _, _ => some values

def interpStep (heap : Heap) (fwd : Fwd) (args : List Int)
    (values : Nat → Option Int) (i : Nat) : Option (Nat → Option Int) :=
  match heap[i]? with
  | none => none
  | some nd => interpOp fwd args values i nd

/-- The interpreter loop, accumulating the `values` dict. -/
def interpRun (heap : Heap) (fwd : Fwd) (args : List Int) :
    (Nat → Option Int) → List Nat → Option (Nat → Option Int)
  | values, [] => some values
  | values, i :: rest =>
    match interpStep heap fwd args values i with
    | none => none
    | some values' => interpRun heap fwd args values' rest

/-- `interp(block, args)` (`src/main.py` lines 193-211): run the loop and
return `values[block[-1]]` (`IndexError` on an empty block, `KeyError` if
the last instruction was never assigned). -/
def interp (heap : Heap) (fwd : Fwd) (block : List Nat) (args : List Int) : Option Int :=
  match interpRun heap fwd args (fun _ => none) block with
  | none => none
  | some values =>
    match block.getLast? with
    | none => none
    | some last => values last

/-! ## SSA validity -/

/-- An argument is admissible when it is a constant or a reference to an
operation already defined (a member of `seen`). -/
def argEarlier (seen : List Nat) : Value → Bool
  | .constant _ => true
  | .operation j => decide (j ∈ seen)

/-- The block suffix `l` is SSA-valid given already-defined ids `seen`:
each id is a fresh, heap-valid operation whose raw arguments refer only to
constants and to strictly earlier operations of the block. -/
def ssaFrom (heap : Heap) : List Nat → List Nat → Bool
  | _, [] => true
  | seen, i :: rest =>
    match heap[i]? with
    | none => false
    | some nd =>
      decide (i ∉ seen) && nd.args.all (argEarlier seen) && ssaFrom heap (seen ++ [i]) rest

/-- SSA validity of a block, as stated in the spec: every operation is
defined exactly once and every argument refers to an earlier operation. -/
def ssaValid (heap : Heap) (block : List Nat) : Bool :=
  ssaFrom heap [] block

/-! ## Arithmetic helper: bitwise AND with 1 extracts the low bit -/

theorem ldiff_one (m : Nat) : Nat.ldiff 1 m = if m % 2 = 1 then 0 else 1 := by
  apply Nat.eq_of_testBit_eq
  intro i
  rw [Nat.testBit_ldiff]
  cases i with
  | zero =>
    simp only [Nat.testBit_zero]
    rcases Nat.even_or_odd m with h | h
    · have h2 : m % 2 = 0 := Nat.even_iff.mp h
      simp [h2]
    · have h2 : m % 2 = 1 := Nat.odd_iff.mp h
      simp [h2]
  | succ n =>
    have h1 : Nat.testBit 1 (n + 1) = false := by
      have := @Nat.testBit_two_pow 0 (n + 1)
      simpa using this
    rcases Nat.even_or_odd m with h | h
    · have h2 : m % 2 = 0 := Nat.even_iff.mp h
      simp [h1, h2, Nat.testBit_two_pow]
    · have h2 : m % 2 = 1 := Nat.odd_iff.mp h
      simp [h1, h2]

theorem land_one_eq_emod (n : Int) : Int.land n 1 = n % 2 := by
  cases n with
  | ofNat m =>
    show (↑(m &&& 1) : Int) = _
    rw [Nat.and_one_is_mod]
    simp only [Int.ofNat_eq_coe]
    omega
  | negSucc m =>
    show (↑(Nat.ldiff 1 m) : Int) = _
    rw [ldiff_one, Int.negSucc_eq]
    rcases Nat.even_or_odd m with h | h
    · have h2 : m % 2 = 0 := Nat.even_iff.mp h
      simp [h2]
      omega
    · have h2 : m % 2 = 1 := Nat.odd_iff.mp h
      simp [h2]
      omega

theorem land_comm_one (n : Int) : Int.land 1 n = Int.land n 1 := by
  cases n with
  | ofNat m => exact congrArg Int.ofNat (Nat.land_comm 1 m)
  | negSucc m => rfl

/-! ## Concrete blocks from the source and the spec's testable properties -/

/-- The block built at module level in `src/main.py` (lines 183-190):
`v0=getarg(0); v1=getarg(1); v2=lshift(v0,1); v3=lshift(v1,1);
v4=add(v2,v3); v5=bitand(v4,1); v6=dummy(v5)`. -/
def exampleHeap : Heap :=
  [ ⟨.getarg, [.constant 0]⟩
  , ⟨.getarg, [.constant 1]⟩
  , ⟨.lshift, [.operation 0, .constant 1]⟩
  , ⟨.lshift, [.operation 1, .constant 1]⟩
  , ⟨.add,    [.operation 2, .operation 3]⟩
  , ⟨.bitand, [.operation 4, .constant 1]⟩
  , ⟨.dummy,  [.operation 5]⟩ ]

def exampleBlock : List Nat := [0, 1, 2, 3, 4, 5, 6]

/-- What `simplify` actually returns on the example block: all instructions
except `v5` survive (there is no dead-code elimination). -/
def exampleResult : List Nat := [0, 1, 2, 3, 4, 6]

/-- The forwarding state after simplifying the example block: only `v5` is
forwarded, to `Constant(0)`. -/
def exampleFwd : Fwd := [(5, Value.constant 0)]

/-- The parity-driven masking block of §8:
`v0=getarg(0); v1=lshift(v0,1); v2=bitand(v1,1)`. -/
def maskHeap : Heap :=
  [ ⟨.getarg, [.constant 0]⟩
  , ⟨.lshift, [.operation 0, .constant 1]⟩
  , ⟨.bitand, [.operation 1, .constant 1]⟩ ]

def maskBlock : List Nat := [0, 1, 2]

/-- The unknown-parity passthrough block of §8:
`v0=getarg(0); v1=bitand(v0,1)`. -/
def passHeap : Heap :=
  [ ⟨.getarg, [.constant 0]⟩
  , ⟨.bitand, [.operation 0, .constant 1]⟩ ]

def passBlock : List Nat := [0, 1]

/-- A one-instruction block containing `mul(1, 2)`: `mul` has a builder but
no `Parity` transfer function. -/
def mulHeap : Heap := [ ⟨.mul, [.constant 1, .constant 2]⟩ ]

def mulBlock : List Nat := [0]

/-- An SSA-valid block whose `getarg` argument is an operation (the builder
performs no argument validation): `v0=add(1,2); v1=getarg(v0);
v2=getarg(0)`. -/
def foldargHeap : Heap :=
  [ ⟨.add, [.constant 1, .constant 2]⟩
  , ⟨.getarg, [.operation 0]⟩
  , ⟨.getarg, [.constant 0]⟩ ]

def foldargBlock : List Nat := [0, 1, 2]

/-! ## Claims about the parity transfer functions (C7, C8) -/

/-- Claim C7, counterexample: the claim states that `Parity.lshift` returns
EVEN whenever the shift-amount operand is ODD and TOP in every other case;
but the source checks BOTTOM first, so `lshift(BOTTOM, ODD)` is BOTTOM (not
EVEN) and `lshift(EVEN, BOTTOM)` is BOTTOM (not TOP). -/
theorem parity_lshift_claim_false :
    Parity.lshift .bottom .odd = .bottom ∧ Parity.bottom ≠ Parity.even
    ∧ Parity.lshift .even .bottom = .bottom ∧ Parity.bottom ≠ Parity.top := by
  refine ⟨rfl, by decide, rfl, by decide⟩

/-- Claim C7 (amended): `Parity.lshift` returns BOTTOM when either operand
is BOTTOM; otherwise EVEN whenever the shift-amount operand is ODD;
otherwise TOP (for any parity of the shifted operand). -/
theorem parity_lshift_spec (a b : Parity) :
    Parity.lshift a b =
      if a = .bottom ∨ b = .bottom then .bottom
      else if b = .odd then .even
      else .top := by
  cases a <;> cases b <;> rfl

/-- Claim C8, counterexample: the claim simultaneously requires
`add(TOP, BOTTOM)` to be TOP ("TOP when either operand is TOP") and BOTTOM
("BOTTOM when either operand is BOTTOM"); in the source the BOTTOM check
comes first, so the result is BOTTOM and the TOP clause is false. -/
theorem parity_add_claim_false :
    Parity.add .top .bottom = .bottom ∧ Parity.bottom ≠ Parity.top := by
  exact ⟨rfl, by decide⟩

/-- Claim C8 (amended): `Parity.add` returns BOTTOM when either operand is
BOTTOM; otherwise TOP when either operand is TOP; EVEN when both operands
are EVEN or both are ODD; ODD when one is EVEN and the other ODD. -/
theorem parity_add_spec (a b : Parity) :
    Parity.add a b =
      if a = .bottom ∨ b = .bottom then .bottom
      else if a = .top ∨ b = .top then .top
      else if a = b then .even
      else .odd := by
  cases a <;> cases b <;> rfl

/-! ## Claims decided by running the optimizer on concrete blocks
(C2, C3, C4, C9, and the counterexample for C1) -/

/-- Claim C2, counterexample: `simplify` on the seven-instruction example
block does *not* produce a two-instruction block, and `v6` does *not*
resolve to `Constant(0)`: there is no dead-code elimination, so the result
has the six instructions `v0,v1,v2,v3,v4,v6`, and it is `v5` (the
`bitand`), not `v6` (the emitted `dummy`), that is forwarded. -/
theorem simplify_example_block_claim_false :
    simplify exampleHeap [] exampleBlock = some (exampleResult, exampleFwd)
    ∧ exampleResult.length ≠ 2
    ∧ findV exampleFwd (.operation 6) ≠ .constant 0 := by
  refine ⟨rfl, by decide, by decide⟩

/-- Claim C2 (amended): `simplify` on the seven-instruction example block
yields the six-instruction block `v0,v1,v2,v3,v4,v6` (no dead-code
elimination), `v5` resolves via `find` to `Constant(0)` (and `v6` is
emitted with its argument resolving to `Constant(0)`), and interpreting
either block on any two integer arguments yields `0` for the tail
value. -/
theorem simplify_example_block_correct :
    simplify exampleHeap [] exampleBlock = some (exampleResult, exampleFwd)
    ∧ findV exampleFwd (.operation 5) = .constant 0
    ∧ (∀ a b : Int, interp exampleHeap [] exampleBlock [a, b] = some 0)
    ∧ (∀ a b : Int, interp exampleHeap exampleFwd exampleResult [a, b] = some 0) := by
  refine ⟨rfl, rfl, ?_, ?_⟩
  · intro a b
    have h : interp exampleHeap [] exampleBlock [a, b]
        = some (Int.land (a * 2 ^ ((1 : Int).toNat) + b * 2 ^ ((1 : Int).toNat)) 1) := rfl
    rw [h, land_one_eq_emod]
    norm_num
  · intro a b
    rfl

/-- Claim C3 is what the spec intends, but the code has a slip: `transfer =
getattr(Parity, op.name)` at `src/main.py` line 246 passes no default, so
an emitted operation with no dedicated transfer function (`mul`, `bitand`)
raises `AttributeError` instead of being assigned TOP.  This theorem
evaluates the code at a failing input: the transfer lookup for `mul` fails,
and simplifying the block `v0 = mul(1, 2)` crashes. -/
theorem transfer_missing_raises :
    transfer .mul [.even, .even] = none
    ∧ transfer .bitand [.top, .odd] = none
    ∧ ssaValid mulHeap mulBlock = true
    ∧ simplify mulHeap [] mulBlock = none := by
  refine ⟨rfl, rfl, by decide, rfl⟩

/-- Claim C4 is what the spec intends, but the code crashes on its very
block: in `v0=getarg(0); v1=bitand(v0,1)` the parity of `v0` is TOP, so no
rewrite fires and `v1` is emitted — at which point
`getattr(Parity, "bitand")` raises `AttributeError` (`src/main.py` line
246).  `simplify` therefore raises instead of returning the unchanged
two-instruction block. -/
theorem simplify_passthrough_raises :
    ssaValid passHeap passBlock = true
    ∧ simplify passHeap [] passBlock = none := by
  exact ⟨by decide, rfl⟩

/-- Claim C9: on `v0=getarg(0); v1=lshift(v0,1); v2=bitand(v1,1)` the
optimizer forwards `v2` to `Constant(0)` (the lshift result is classified
EVEN because the shift amount is ODD, and EVEN `bitand` 1 is 0), and the
resulting block contains exactly the two instructions `v0` and `v1`. -/
theorem simplify_masking_block :
    simplify maskHeap [] maskBlock = some ([0, 1], [(2, Value.constant 0)])
    ∧ findV [(2, Value.constant 0)] (.operation 2) = .constant 0 := by
  exact ⟨rfl, rfl⟩

/-- Claim C1, counterexample, two failure modes.  (a) On the masking block
the last instruction `v2` is itself optimized away, so the optimized
block's last instruction is `v1 = lshift(v0, 1)`: with argument `1` the
original block's final value is `0` but the optimized block's is `2`.
(b) On `v0=add(1,2); v1=getarg(v0); v2=getarg(0)` (SSA-valid; the builder
does not validate arguments) constant folding rewrites `v1`'s argument to
`Constant(3)`, so interpreting the optimized block evaluates `getarg(3)`
and raises `IndexError` on a one-element argument list, while the original
block (where `v1`'s argument is a non-constant and the instruction is
skipped) interprets fine and its retained last instruction yields `5`. -/
theorem interp_simplify_claim_false :
    (interp maskHeap [] maskBlock [1] = some 0
      ∧ simplify maskHeap [] maskBlock = some ([0, 1], [(2, Value.constant 0)])
      ∧ interp maskHeap [(2, Value.constant 0)] [0, 1] [1] = some 2
      ∧ (0 : Int) ≠ 2)
    ∧ (ssaValid foldargHeap foldargBlock = true
      ∧ interp foldargHeap [] foldargBlock [5] = some 5
      ∧ simplify foldargHeap [] foldargBlock = some ([1, 2], [(0, Value.constant 3)])
      ∧ lookupFwd [(0, Value.constant 3)] 2 = none
      ∧ interp foldargHeap [(0, Value.constant 3)] [1, 2] [5] = none) := by
  exact ⟨⟨rfl, rfl, rfl, by decide⟩, ⟨by decide, rfl, rfl, rfl, rfl⟩⟩

/-! ## The union-find invariant layer

Throughout the pass every forwarding target installed by `make_equal_to` is
itself a representative (a constant, or an operation whose pointer is
unset), so `find` stabilizes after at most one hop.  The following lemmas
develop this. -/

/-- `v` is a representative in `fwd`: a constant, or an unforwarded
operation. -/
def isRep (fwd : Fwd) : Value → Prop
  | .constant _ => True
  | .operation j => lookupFwd fwd j = none

/-- All forwarding targets are representatives. -/
def goodFwd (fwd : Fwd) : Prop :=
  ∀ i t, lookupFwd fwd i = some t → isRep fwd t

theorem findAux_constant (fwd : Fwd) (fuel : Nat) (c : Int) :
    findAux fwd fuel (.constant c) = .constant c := by
  cases fuel <;> rfl

theorem findV_constant (fwd : Fwd) (c : Int) :
    findV fwd (.constant c) = .constant c := rfl

theorem lookupFwd_ne_nil {fwd : Fwd} {i : Nat} {t : Value}
    (h : lookupFwd fwd i = some t) : fwd ≠ [] := by
  intro he
  subst he
  simp [lookupFwd] at h

/-- Under `goodFwd`, `find` on an operation is a single lookup. -/
theorem findV_op {fwd : Fwd} (hgf : goodFwd fwd) (i : Nat) :
    findV fwd (.operation i) =
      match lookupFwd fwd i with
      | none => .operation i
      | some t => t := by
  unfold findV
  cases hl : lookupFwd fwd i with
  | none => simp [findAux, hl]
  | some t =>
    have hne : fwd ≠ [] := lookupFwd_ne_nil hl
    have hlen : 1 ≤ fwd.length := by
      cases fwd with
      | nil => exact absurd rfl hne
      | cons a l => simp
    have hrep := hgf i t hl
    obtain ⟨n, hn⟩ : ∃ n, fwd.length = n + 1 := ⟨fwd.length - 1, by omega⟩
    rw [hn]
    show findAux fwd (n + 1 + 1) (.operation i) = t
    rw [findAux, hl]
    cases t with
    | constant c => exact findAux_constant fwd (n + 1) c
    | operation j =>
      have hj : lookupFwd fwd j = none := hrep
      show findAux fwd (n + 1) (.operation j) = .operation j
      rw [findAux, hj]

/-- Under `goodFwd`, `find` of an unforwarded operation is itself. -/
theorem findV_op_none {fwd : Fwd} (hgf : goodFwd fwd) {i : Nat}
    (h : lookupFwd fwd i = none) : findV fwd (.operation i) = .operation i := by
  rw [findV_op hgf i, h]

/-- Under `goodFwd`, `find` of a forwarded operation is its target. -/
theorem findV_op_some {fwd : Fwd} (hgf : goodFwd fwd) {i : Nat} {t : Value}
    (h : lookupFwd fwd i = some t) : findV fwd (.operation i) = t := by
  rw [findV_op hgf i, h]

/-- The result of `find` is a representative. -/
theorem isRep_findV {fwd : Fwd} (hgf : goodFwd fwd) (v : Value) :
    isRep fwd (findV fwd v) := by
  cases v with
  | constant c => rw [findV_constant]; trivial
  | operation i =>
    cases hl : lookupFwd fwd i with
    | none => rw [findV_op_none hgf hl]; exact hl
    | some t => rw [findV_op_some hgf hl]; exact hgf i t hl

theorem lookupFwd_cons (c : Nat) (t : Value) (fwd : Fwd) (i : Nat) :
    lookupFwd ((c, t) :: fwd) i = if i = c then some t else lookupFwd fwd i := rfl

/-- Prepending an entry for a fresh id keeps `goodFwd`, provided the new
target is a representative distinct from the fresh id. -/
theorem goodFwd_cons {fwd : Fwd} (hgf : goodFwd fwd) {c : Nat} {t : Value}
    (ht : isRep fwd t)
    (htc : ∀ j, t = .operation j → j ≠ c)
    (hold : ∀ i u j, lookupFwd fwd i = some u → u = .operation j → j ≠ c) :
    goodFwd ((c, t) :: fwd) := by
  intro i u hl
  rw [lookupFwd_cons] at hl
  by_cases hic : i = c
  · rw [if_pos hic] at hl
    obtain rfl : t = u := by injection hl
    cases t with
    | constant _ => trivial
    | operation j =>
      show lookupFwd ((c, .operation j) :: fwd) j = none
      rw [lookupFwd_cons, if_neg (htc j rfl)]
      exact ht
  · rw [if_neg hic] at hl
    have := hgf i u hl
    cases u with
    | constant _ => trivial
    | operation j =>
      show lookupFwd ((c, t) :: fwd) j = none
      rw [lookupFwd_cons, if_neg (hold i _ j hl rfl)]
      exact this

/-- `find` is unchanged by a new entry for a different id (both states
`goodFwd`). -/
theorem findV_cons_ne {fwd : Fwd} {c : Nat} {t : Value}
    (hgf : goodFwd fwd) (hgf' : goodFwd ((c, t) :: fwd))
    (v : Value) (hv : ∀ j, v = .operation j → j ≠ c) :
    findV ((c, t) :: fwd) v = findV fwd v := by
  cases v with
  | constant k => rw [findV_constant, findV_constant]
  | operation m =>
    have hmc : m ≠ c := hv m rfl
    rw [findV_op hgf' m, findV_op hgf m, lookupFwd_cons, if_neg hmc]

/-- `make_equal_to` on an unforwarded operation installs the pointer. -/
theorem makeEqualTo_unforwarded {fwd : Fwd} (hgf : goodFwd fwd) {i : Nat}
    (h : lookupFwd fwd i = none) (v : Value) :
    makeEqualTo fwd i v = some ((i, v) :: fwd) := by
  unfold makeEqualTo
  rw [findV_op_none hgf h]

/-! ## The pass invariant

`PassInv heap P s` collects everything that holds of the `simplify` state `s`
after the prefix `P` of the block has been processed. -/

/-- The CSE key `(op.name, tuple(op.args))` of operation `i` under
forwarding state `fwd`. -/
def opKey (heap : Heap) (fwd : Fwd) (i : Nat) : Option (OpName × List Value) :=
  (heap[i]?).map fun nd => (nd.name, nd.args.map (findV fwd))

/-- A raw argument admissible after the ids `P`: a constant or a reference
into `P`. -/
def argVal (P : List Nat) : Value → Prop
  | .constant _ => True
  | .operation j => j ∈ P

theorem argVal_mono {P Q : List Nat} (h : ∀ x ∈ P, x ∈ Q) :
    ∀ v, argVal P v → argVal Q v := by
  intro v hv
  cases v with
  | constant c => trivial
  | operation j => exact h j hv

structure PassInv (heap : Heap) (P : List Nat) (s : SState) : Prop where
  gf : goodFwd s.fwd
  tgt : ∀ i t j, lookupFwd s.fwd i = some t → t = .operation j → j ∈ s.result
  domP : ∀ i t, lookupFwd s.fwd i = some t → i ∈ P
  resFilter : s.result = P.filter (fun i => (lookupFwd s.fwd i).isNone)
  cseSound : ∀ k j, lookupCSE s.cse k = some j → j ∈ s.result ∧ opKey heap s.fwd j = some k
  cseComplete : ∀ j, j ∈ s.result → ∀ k, opKey heap s.fwd j = some k → lookupCSE s.cse k = some j
  parityRes : ∀ j, j ∈ s.result → ∃ nd ps p, heap[j]? = some nd
      ∧ (nd.args.map (findV s.fwd)).mapM (parityOf s.parity) = some ps
      ∧ transfer nd.name ps = some p
      ∧ s.parity j = some p
  rawArgs : ∀ A j B, P = A ++ j :: B → ∀ nd, heap[j]? = some nd →
      ∀ v ∈ nd.args, argVal A v
  argsRep : ∀ A j B, P = A ++ j :: B → ∀ nd, heap[j]? = some nd →
      ∀ v ∈ nd.args.map (findV s.fwd),
        (∃ c, v = .constant c) ∨ (∃ k, v = .operation k ∧ k ∈ s.result ∧ k ∈ A)
  c6inv : ∀ i, i ∈ P → ∀ nd, heap[i]? = some nd →
      (∀ j, lookupCSE s.cse (nd.name, nd.args.map (findV s.fwd)) = some j →
          findV s.fwd (.operation i) = .operation j)
      ∧ (lookupCSE s.cse (nd.name, nd.args.map (findV s.fwd)) = none →
          ∃ c, trySimplify s.parity nd.name (nd.args.map (findV s.fwd))
                = some (some (.constant c))
            ∧ findV s.fwd (.operation i) = .constant c)
  noPattern : ∀ j, j ∈ s.result → ∀ nd, heap[j]? = some nd →
      trySimplify s.parity nd.name (nd.args.map (findV s.fwd)) = some none

/-- An emitted operation is not forwarded. -/
theorem PassInv.resultUnforwarded {heap P s} (hInv : PassInv heap P s) :
    ∀ j, j ∈ s.result → lookupFwd s.fwd j = none := by
  intro j hj
  rw [hInv.resFilter] at hj
  have := List.mem_filter.mp hj
  exact Option.isNone_iff_eq_none.mp this.2

theorem PassInv.resultSubP {heap P s} (hInv : PassInv heap P s) :
    ∀ j, j ∈ s.result → j ∈ P := by
  intro j hj
  rw [hInv.resFilter] at hj
  exact (List.mem_filter.mp hj).1

/-- A processed but unforwarded operation was emitted. -/
theorem PassInv.memResult {heap P s} (hInv : PassInv heap P s) :
    ∀ j, j ∈ P → lookupFwd s.fwd j = none → j ∈ s.result := by
  intro j hj hn
  rw [hInv.resFilter]
  exact List.mem_filter.mpr ⟨hj, Option.isNone_iff_eq_none.mpr hn⟩

/-- An unprocessed operation is not forwarded. -/
theorem PassInv.notP_unforwarded {heap P s} (hInv : PassInv heap P s) :
    ∀ i, i ∉ P → lookupFwd s.fwd i = none := by
  intro i hi
  cases h : lookupFwd s.fwd i with
  | none => rfl
  | some t => exact absurd (hInv.domP i t h) hi

/-- The resolved arguments of the operation about to be processed are
constants or earlier-emitted operations. -/
theorem PassInv.argRep {heap P s} (hInv : PassInv heap P s) {nd : OpNode}
    (hargs : ∀ v ∈ nd.args, argVal P v) :
    ∀ v ∈ nd.args.map (findV s.fwd),
      (∃ c, v = .constant c) ∨ (∃ k, v = .operation k ∧ k ∈ s.result ∧ k ∈ P) := by
  intro v hv
  obtain ⟨a, ha, rfl⟩ := List.mem_map.mp hv
  cases a with
  | constant c => exact Or.inl ⟨c, findV_constant _ _⟩
  | operation m =>
    have hmP : m ∈ P := hargs _ ha
    cases hl : lookupFwd s.fwd m with
    | none =>
      refine Or.inr ⟨m, findV_op_none hInv.gf hl, ?_, hmP⟩
      exact hInv.memResult m hmP hl
    | some t =>
      rw [findV_op_some hInv.gf hl]
      cases t with
      | constant c => exact Or.inl ⟨c, rfl⟩
      | operation k =>
        have hk : k ∈ s.result := hInv.tgt m _ k hl rfl
        exact Or.inr ⟨k, rfl, hk, hInv.resultSubP k hk⟩

/-- Decomposing `l ++ [x] = A ++ j :: B`. -/
theorem append_singleton_decomp {α : Type} {l A B : List α} {x j : α}
    (h : l ++ [x] = A ++ j :: B) :
    (∃ B', l = A ++ j :: B' ∧ B = B' ++ [x]) ∨ (A = l ∧ j = x ∧ B = []) := by
  induction B using List.reverseRecOn with
  | nil =>
    right
    have h2 := List.append_inj' h rfl
    have h3 : x = j := by injection h2.2
    exact ⟨h2.1.symm, h3.symm, rfl⟩
  | append_singleton B' x' _ =>
    left
    have h2 : l ++ [x] = (A ++ j :: B') ++ [x'] := by
      rw [h]; simp
    have := List.append_inj' h2 rfl
    refine ⟨B', this.1, ?_⟩
    injection this.2 with h3
    rw [h3]

/-! ## Stability lemmas: processing one instruction does not disturb the
facts recorded about earlier instructions. -/

theorem bitandArg_mem : ∀ {rargs : List Value} {arg : Value},
    bitandArg rargs = some arg → arg ∈ rargs := by
  intro rargs arg h
  unfold bitandArg at h
  split at h
  · injection h with h; subst h; exact List.mem_cons_self _ _
  · injection h with h; subst h; exact List.mem_cons_of_mem _ (List.mem_cons_self _ _)
  · exact absurd h (by simp)

theorem trySimplify_congr {p₁ p₂ : Nat → Option Parity} (name : OpName) (rargs : List Value)
    (h : ∀ v ∈ rargs, parityOf p₁ v = parityOf p₂ v) :
    trySimplify p₁ name rargs = trySimplify p₂ name rargs := by
  unfold trySimplify
  split
  · next arg heq => rw [h arg (bitandArg_mem heq)]
  · rfl

theorem trySimplify_target_const {parity : Nat → Option Parity} {name : OpName}
    {rargs : List Value} {t : Value}
    (h : trySimplify parity name rargs = some (some t)) : ∃ c, t = .constant c := by
  unfold trySimplify at h
  split at h
  · cases hp : parityOf parity _ with
    | none => rw [hp] at h; exact absurd h (by simp)
    | some p =>
      rw [hp] at h
      by_cases he : p = .even
      · simp [he] at h; exact ⟨0, h.symm⟩
      · by_cases ho : p = .odd
        · simp [he, ho] at h; exact ⟨1, h.symm⟩
        · simp [he, ho] at h
  · split at h
    · injection h with h; injection h with h; exact ⟨_, h.symm⟩
    · injection h with h; exact absurd h (by simp)

theorem map_findV_cons {fwd : Fwd} {c : Nat} {t : Value}
    (hgf : goodFwd fwd) (hgf' : goodFwd ((c, t) :: fwd))
    (l : List Value) (hl : ∀ v ∈ l, ∀ j, v = .operation j → j ≠ c) :
    l.map (findV ((c, t) :: fwd)) = l.map (findV fwd) :=
  List.map_congr_left fun v hv => findV_cons_ne hgf hgf' v (hl v hv)

/-- Preservation of the pass invariant when the current instruction `i` is
forwarded (by CSE or by a pattern rewrite) to a representative `t`. -/
theorem forward_inv {heap : Heap} {P : List Nat} {s : SState} {i : Nat} {nd : OpNode}
    {t : Value}
    (hInv : PassInv heap P s)
    (hiP : i ∉ P)
    (hnd : heap[i]? = some nd)
    (hargs : ∀ v ∈ nd.args, argVal P v)
    (ht : isRep s.fwd t)
    (htgt : ∀ j, t = .operation j → j ∈ s.result)
    (hc6 : (∃ prev, lookupCSE s.cse (nd.name, nd.args.map (findV s.fwd)) = some prev
              ∧ t = .operation prev)
         ∨ (lookupCSE s.cse (nd.name, nd.args.map (findV s.fwd)) = none
              ∧ ∃ c, trySimplify s.parity nd.name (nd.args.map (findV s.fwd))
                      = some (some (.constant c))
                  ∧ t = .constant c)) :
    PassInv heap (P ++ [i]) { s with fwd := (i, t) :: s.fwd } := by
  have htne : ∀ j, t = .operation j → j ≠ i := by
    intro j hj hji
    exact hiP (hji ▸ hInv.resultSubP j (htgt j hj))
  have hold : ∀ i₀ u j₀, lookupFwd s.fwd i₀ = some u → u = .operation j₀ → j₀ ≠ i := by
    intro i₀ u j₀ hl hu hji
    exact hiP (hji ▸ hInv.resultSubP j₀ (hInv.tgt i₀ u j₀ hl hu))
  have hgf' : goodFwd ((i, t) :: s.fwd) := goodFwd_cons hInv.gf ht htne hold
  have lookI : lookupFwd ((i, t) :: s.fwd) i = some t := by
    rw [lookupFwd_cons, if_pos rfl]
  have lookStab : ∀ m, m ≠ i → lookupFwd ((i, t) :: s.fwd) m = lookupFwd s.fwd m := by
    intro m hm
    rw [lookupFwd_cons, if_neg hm]
  have stabP : ∀ j, j ∈ P → findV ((i, t) :: s.fwd) (.operation j) = findV s.fwd (.operation j) := by
    intro j hj
    refine findV_cons_ne hInv.gf hgf' _ ?_
    intro j₀ hj₀ hji
    injection hj₀ with hj₀
    exact hiP (hji ▸ hj₀ ▸ hj)
  have keyStab : ∀ j, j ∈ P → ∀ nd', heap[j]? = some nd' →
      nd'.args.map (findV ((i, t) :: s.fwd)) = nd'.args.map (findV s.fwd) := by
    intro j hj nd' hnd'
    obtain ⟨A, B, hAB⟩ := List.append_of_mem hj
    apply map_findV_cons hInv.gf hgf'
    intro v hv j₀ hv₀ hji
    have hmem : i ∈ A := by
      have hA := hInv.rawArgs A j B hAB nd' hnd' v hv
      rw [hv₀] at hA
      exact hji ▸ hA
    exact hiP (by rw [hAB]; exact List.mem_append.mpr (Or.inl hmem))
  have argStab : nd.args.map (findV ((i, t) :: s.fwd)) = nd.args.map (findV s.fwd) := by
    apply map_findV_cons hInv.gf hgf'
    intro v hv j₀ hv₀ hji
    have hPv := hargs v hv
    rw [hv₀] at hPv
    exact hiP (hji ▸ hPv)
  refine ⟨hgf', ?_, ?_, ?_, ?_, ?_, ?_, ?_, ?_, ?_, ?_⟩
  · -- tgt
    intro i₀ u j₀ hl hu
    show j₀ ∈ s.result
    by_cases hi₀ : i₀ = i
    · subst hi₀
      rw [lookI] at hl
      obtain rfl : t = u := by injection hl
      exact htgt j₀ hu
    · rw [lookStab i₀ hi₀] at hl
      exact hInv.tgt i₀ u j₀ hl hu
  · -- domP
    intro i₀ u hl
    by_cases hi₀ : i₀ = i
    · subst hi₀; exact List.mem_append.mpr (Or.inr (List.mem_singleton.mpr rfl))
    · rw [lookStab i₀ hi₀] at hl
      exact List.mem_append.mpr (Or.inl (hInv.domP i₀ u hl))
  · -- resFilter
    show s.result = _
    rw [List.filter_append]
    have h1 : List.filter (fun a => (lookupFwd ((i, t) :: s.fwd) a).isNone) [i] = [] := by
      simp [List.filter, lookI]
    have h2 : List.filter (fun a => (lookupFwd ((i, t) :: s.fwd) a).isNone) P
        = List.filter (fun a => (lookupFwd s.fwd a).isNone) P := by
      apply List.filter_congr
      intro a ha
      rw [lookStab a (fun hai => hiP (hai ▸ ha))]
    rw [h1, h2, List.append_nil]
    exact hInv.resFilter
  · -- cseSound
    intro k j hkj
    obtain ⟨hjres, hkey⟩ := hInv.cseSound k j hkj
    refine ⟨hjres, ?_⟩
    show opKey heap ((i, t) :: s.fwd) j = some k
    unfold opKey at hkey ⊢
    cases hj : heap[j]? with
    | none => rw [hj] at hkey; exact absurd hkey (by simp)
    | some ndj =>
      rw [hj] at hkey
      show some (ndj.name, ndj.args.map (findV ((i, t) :: s.fwd))) = some k
      rw [keyStab j (hInv.resultSubP j hjres) ndj hj]
      exact hkey
  · -- cseComplete
    intro j hjres k hkey
    have hjres' : j ∈ s.result := hjres
    apply hInv.cseComplete j hjres' k
    show opKey heap s.fwd j = some k
    replace hkey : opKey heap ((i, t) :: s.fwd) j = some k := hkey
    unfold opKey at hkey ⊢
    cases hj : heap[j]? with
    | none => rw [hj] at hkey; exact absurd hkey (by simp)
    | some ndj =>
      rw [hj] at hkey
      show some (ndj.name, ndj.args.map (findV s.fwd)) = some k
      rw [← keyStab j (hInv.resultSubP j hjres') ndj hj]
      exact hkey
  · -- parityRes
    intro j hjres
    obtain ⟨ndj, ps, p, hj, hps, htr, hp⟩ := hInv.parityRes j hjres
    exact ⟨ndj, ps, p, hj, by rw [keyStab j (hInv.resultSubP j hjres) ndj hj]; exact hps, htr, hp⟩
  · -- rawArgs
    intro A j B hAB nd' hnd' v hv
    rcases append_singleton_decomp hAB with ⟨B', hP, _⟩ | ⟨hA, hj, _⟩
    · exact hInv.rawArgs A j B' hP nd' hnd' v hv
    · subst hA
      obtain rfl : j = i := hj
      obtain rfl : nd' = nd := by
        rw [hnd] at hnd'
        injection hnd' with h
        exact h.symm
      exact hargs v hv
  · -- argsRep
    intro A j B hAB nd' hnd' v hv
    rcases append_singleton_decomp hAB with ⟨B', hP, _⟩ | ⟨hA, hj, _⟩
    · have hjP : j ∈ P := by rw [hP]; exact List.mem_append.mpr (Or.inr (List.mem_cons_self _ _))
      rw [keyStab j hjP nd' hnd'] at hv
      rcases hInv.argsRep A j B' hP nd' hnd' v hv with h | ⟨k, hk, hkres, hkA⟩
      · exact Or.inl h
      · exact Or.inr ⟨k, hk, hkres, hkA⟩
    · subst hA
      obtain rfl : j = i := hj
      obtain rfl : nd' = nd := by
        rw [hnd] at hnd'
        injection hnd' with h
        exact h.symm
      rw [argStab] at hv
      rcases hInv.argRep hargs v hv with h | ⟨k, hk, hkres, hkP⟩
      · exact Or.inl h
      · exact Or.inr ⟨k, hk, hkres, hkP⟩
  · -- c6inv
    intro i₀ hi₀ nd' hnd'
    rcases List.mem_append.mp hi₀ with hi₀P | hi₀i
    · have hkey := keyStab i₀ hi₀P nd' hnd'
      have hfind := stabP i₀ hi₀P
      obtain ⟨hsome, hnone⟩ := hInv.c6inv i₀ hi₀P nd' hnd'
      constructor
      · intro j hj
        rw [hkey] at hj
        rw [hfind]
        exact hsome j hj
      · intro hj
        rw [hkey] at hj
        obtain ⟨c, hts, hf⟩ := hnone hj
        exact ⟨c, by rw [hkey]; exact hts, by rw [hfind]; exact hf⟩
    · obtain rfl : i₀ = i := List.mem_singleton.mp hi₀i
      obtain rfl : nd' = nd := by
        rw [hnd] at hnd'
        injection hnd' with h
        exact h.symm
      have hfi := findV_op_some hgf' lookI
      constructor
      · intro j hj
        dsimp only at hj ⊢
        rw [argStab] at hj
        rcases hc6 with ⟨prev, hprev, hteq⟩ | ⟨hnone, _⟩
        · rw [hprev] at hj
          injection hj with hj
          rw [hfi, hteq, hj]
        · rw [hnone] at hj
          exact absurd hj (by simp)
      · intro hj
        dsimp only at hj ⊢
        rw [argStab] at hj
        rcases hc6 with ⟨prev, hprev, hteq⟩ | ⟨hnone, c, hts, hteq⟩
        · rw [hprev] at hj
          exact absurd hj (by simp)
        · refine ⟨c, ?_, ?_⟩
          · rw [argStab]
            exact hts
          · rw [hfi, hteq]
  · -- noPattern
    intro j hjres nd' hnd'
    rw [keyStab j (hInv.resultSubP j hjres) nd' hnd']
    exact hInv.noPattern j hjres nd' hnd'

theorem lookupCSE_cons (k' : OpName × List Value) (j : Nat)
    (cse : List ((OpName × List Value) × Nat)) (k : OpName × List Value) :
    lookupCSE ((k', j) :: cse) k = if k = k' then some j else lookupCSE cse k := rfl

theorem mapM_parity_congr {p₁ p₂ : Nat → Option Parity} :
    ∀ (l : List Value), (∀ v ∈ l, parityOf p₁ v = parityOf p₂ v) →
      l.mapM (parityOf p₁) = l.mapM (parityOf p₂) := by
  intro l
  induction l with
  | nil => intro _; rfl
  | cons a l ih =>
    intro h
    rw [List.mapM_cons, List.mapM_cons, h a (List.mem_cons_self _ _),
      ih (fun v hv => h v (List.mem_cons_of_mem _ hv))]

/-- Preservation of the pass invariant when the current instruction `i` is
emitted: CSE missed, no rewrite fired, and the abstract analysis
succeeded. -/
theorem emit_inv {heap : Heap} {P : List Nat} {s : SState} {i : Nat} {nd : OpNode}
    {argps : List Parity} {p : Parity}
    (hInv : PassInv heap P s)
    (hiP : i ∉ P)
    (hnd : heap[i]? = some nd)
    (hargs : ∀ v ∈ nd.args, argVal P v)
    (hmiss : lookupCSE s.cse (nd.name, nd.args.map (findV s.fwd)) = none)
    (hpat : trySimplify s.parity nd.name (nd.args.map (findV s.fwd)) = some none)
    (hps : (nd.args.map (findV s.fwd)).mapM (parityOf s.parity) = some argps)
    (htr : transfer nd.name argps = some p) :
    PassInv heap (P ++ [i])
      { fwd := s.fwd
        parity := fun j => if j = i then some p else s.parity j
        cse := ((nd.name, nd.args.map (findV s.fwd)), i) :: s.cse
        result := s.result ++ [i] } := by
  have hiF : lookupFwd s.fwd i = none := hInv.notP_unforwarded i hiP
  have hparStab : ∀ v, (∀ k, v = .operation k → k ≠ i) →
      parityOf (fun j => if j = i then some p else s.parity j) v = parityOf s.parity v := by
    intro v hv
    cases v with
    | constant c => rfl
    | operation k =>
      show (if k = i then some p else s.parity k) = s.parity k
      rw [if_neg (hv k rfl)]
  have hresne : ∀ k, k ∈ s.result → k ≠ i := by
    intro k hk hki
    exact hiP (hki ▸ hInv.resultSubP k hk)
  -- resolved arguments of any op processed so far (or of `i` itself) avoid `i`
  have hcompP : ∀ (l : List Value),
      (∀ v ∈ l, (∃ c, v = .constant c) ∨ (∃ k, v = .operation k ∧ k ∈ s.result)) →
      ∀ v ∈ l, (∀ k, v = .operation k → k ≠ i) := by
    intro l hl v hv k hvk hki
    rcases hl v hv with ⟨c, hc⟩ | ⟨k', hk', hk'res⟩
    · rw [hc] at hvk; exact absurd hvk (by simp)
    · rw [hk'] at hvk
      injection hvk with h
      exact hresne k' hk'res (h.trans hki)
  have hargRepI := hInv.argRep hargs
  have hargsne : ∀ v ∈ nd.args.map (findV s.fwd), ∀ k, v = .operation k → k ≠ i := by
    apply hcompP
    intro v hv
    rcases hargRepI v hv with h | ⟨k, hk, hkres, _⟩
    · exact Or.inl h
    · exact Or.inr ⟨k, hk, hkres⟩
  have hargsneJ : ∀ j, j ∈ P → ∀ ndj, heap[j]? = some ndj →
      ∀ v ∈ ndj.args.map (findV s.fwd), ∀ k, v = .operation k → k ≠ i := by
    intro j hj ndj hndj
    obtain ⟨A, B, hAB⟩ := List.append_of_mem hj
    apply hcompP
    intro v hv
    rcases hInv.argsRep A j B hAB ndj hndj v hv with h | ⟨k, hk, hkres, _⟩
    · exact Or.inl h
    · exact Or.inr ⟨k, hk, hkres⟩
  refine ⟨hInv.gf, ?_, ?_, ?_, ?_, ?_, ?_, ?_, ?_, ?_, ?_⟩
  · -- tgt
    intro i₀ u j₀ hl hu
    exact List.mem_append.mpr (Or.inl (hInv.tgt i₀ u j₀ hl hu))
  · -- domP
    intro i₀ u hl
    exact List.mem_append.mpr (Or.inl (hInv.domP i₀ u hl))
  · -- resFilter
    show s.result ++ [i] = _
    rw [List.filter_append]
    have h1 : List.filter (fun a => (lookupFwd s.fwd a).isNone) [i] = [i] := by
      simp [List.filter, hiF]
    rw [h1, ← hInv.resFilter]
  · -- cseSound
    intro k j hkj
    show j ∈ s.result ++ [i] ∧ opKey heap s.fwd j = some k
    unfold lookupCSE at hkj
    by_cases hk : k = (nd.name, nd.args.map (findV s.fwd))
    · rw [if_pos hk] at hkj
      obtain rfl : i = j := by injection hkj
      refine ⟨List.mem_append.mpr (Or.inr (List.mem_singleton.mpr rfl)), ?_⟩
      unfold opKey
      rw [hnd, hk]
      rfl
    · rw [if_neg hk] at hkj
      obtain ⟨hjres, hkey⟩ := hInv.cseSound k j hkj
      exact ⟨List.mem_append.mpr (Or.inl hjres), hkey⟩
  · -- cseComplete
    intro j hjres k hkey
    replace hkey : opKey heap s.fwd j = some k := hkey
    show lookupCSE (((nd.name, nd.args.map (findV s.fwd)), i) :: s.cse) k = some j
    unfold lookupCSE
    rcases List.mem_append.mp hjres with hjres | hji
    · by_cases hk : k = (nd.name, nd.args.map (findV s.fwd))
      · exfalso
        have := hInv.cseComplete j hjres k hkey
        rw [hk] at this
        rw [hmiss] at this
        exact absurd this (by simp)
      · rw [if_neg hk]
        exact hInv.cseComplete j hjres k hkey
    · obtain rfl : j = i := List.mem_singleton.mp hji
      have hkeyi : opKey heap s.fwd j = some (nd.name, nd.args.map (findV s.fwd)) := by
        unfold opKey
        rw [hnd]
        rfl
      rw [hkeyi] at hkey
      obtain rfl : (nd.name, nd.args.map (findV s.fwd)) = k := by injection hkey
      rw [if_pos rfl]
  · -- parityRes
    intro j hjres
    rcases List.mem_append.mp hjres with hjres | hji
    · obtain ⟨ndj, ps, pj, hj, hpsj, htrj, hpj⟩ := hInv.parityRes j hjres
      refine ⟨ndj, ps, pj, hj, ?_, htrj, ?_⟩
      · rw [mapM_parity_congr _ (fun v hv =>
          hparStab v (hargsneJ j (hInv.resultSubP j hjres) ndj hj v hv))]
        exact hpsj
      · show (if j = i then some p else s.parity j) = some pj
        rw [if_neg (hresne j hjres)]
        exact hpj
    · obtain rfl : j = i := List.mem_singleton.mp hji
      refine ⟨nd, argps, p, hnd, ?_, htr, ?_⟩
      · rw [mapM_parity_congr _ (fun v hv => hparStab v (hargsne v hv))]
        exact hps
      · show (if j = j then some p else s.parity j) = some p
        rw [if_pos rfl]
  · -- rawArgs
    intro A j B hAB nd' hnd' v hv
    rcases append_singleton_decomp hAB with ⟨B', hP, _⟩ | ⟨hA, hj, _⟩
    · exact hInv.rawArgs A j B' hP nd' hnd' v hv
    · subst hA
      obtain rfl : j = i := hj
      obtain rfl : nd' = nd := by
        rw [hnd] at hnd'
        injection hnd' with h
        exact h.symm
      exact hargs v hv
  · -- argsRep
    intro A j B hAB nd' hnd' v hv
    rcases append_singleton_decomp hAB with ⟨B', hP, _⟩ | ⟨hA, hj, _⟩
    · rcases hInv.argsRep A j B' hP nd' hnd' v hv with h | ⟨k, hk, hkres, hkA⟩
      · exact Or.inl h
      · exact Or.inr ⟨k, hk, List.mem_append.mpr (Or.inl hkres), hkA⟩
    · subst hA
      obtain rfl : j = i := hj
      obtain rfl : nd' = nd := by
        rw [hnd] at hnd'
        injection hnd' with h
        exact h.symm
      rcases hargRepI v hv with h | ⟨k, hk, hkres, hkP⟩
      · exact Or.inl h
      · exact Or.inr ⟨k, hk, List.mem_append.mpr (Or.inl hkres), hkP⟩
  · -- c6inv
    intro i₀ hi₀ nd' hnd'
    rcases List.mem_append.mp hi₀ with hi₀P | hi₀i
    · obtain ⟨hsome, hnone⟩ := hInv.c6inv i₀ hi₀P nd' hnd'
      have htsStab : trySimplify (fun j => if j = i then some p else s.parity j)
          nd'.name (nd'.args.map (findV s.fwd))
          = trySimplify s.parity nd'.name (nd'.args.map (findV s.fwd)) :=
        trySimplify_congr _ _ (fun v hv => hparStab v (hargsneJ i₀ hi₀P nd' hnd' v hv))
      constructor
      · intro j hj
        replace hj : lookupCSE (((nd.name, nd.args.map (findV s.fwd)), i) :: s.cse)
            (nd'.name, nd'.args.map (findV s.fwd)) = some j := hj
        unfold lookupCSE at hj
        by_cases hk : (nd'.name, nd'.args.map (findV s.fwd))
            = (nd.name, nd.args.map (findV s.fwd))
        · exfalso
          have h1 : nd'.name = nd.name := by injection hk
          have h2 : nd'.args.map (findV s.fwd) = nd.args.map (findV s.fwd) := by injection hk
          rcases hnone (by rw [h1, h2]; exact hmiss) with ⟨c, hts, _⟩
          rw [h1, h2, hpat] at hts
          exact absurd hts (by simp)
        · rw [if_neg hk] at hj
          exact hsome j hj
      · intro hj
        replace hj : lookupCSE (((nd.name, nd.args.map (findV s.fwd)), i) :: s.cse)
            (nd'.name, nd'.args.map (findV s.fwd)) = none := hj
        unfold lookupCSE at hj
        by_cases hk : (nd'.name, nd'.args.map (findV s.fwd))
            = (nd.name, nd.args.map (findV s.fwd))
        · rw [if_pos hk] at hj
          exact absurd hj (by simp)
        · rw [if_neg hk] at hj
          obtain ⟨c, hts, hf⟩ := hnone hj
          exact ⟨c, by rw [htsStab]; exact hts, hf⟩
    · obtain rfl : i₀ = i := List.mem_singleton.mp hi₀i
      obtain rfl : nd' = nd := by
        rw [hnd] at hnd'
        injection hnd' with h
        exact h.symm
      constructor
      · intro j hj
        rw [lookupCSE_cons, if_pos rfl] at hj
        injection hj with hij
        rw [← hij]
        exact findV_op_none hInv.gf hiF
      · intro hj
        rw [lookupCSE_cons, if_pos rfl] at hj
        exact absurd hj (by simp)
  · -- noPattern
    intro j hjres nd' hnd'
    rcases List.mem_append.mp hjres with hjres | hji
    · rw [trySimplify_congr _ _ (fun v hv =>
        hparStab v (hargsneJ j (hInv.resultSubP j hjres) nd' hnd' v hv))]
      exact hInv.noPattern j hjres nd' hnd'
    · obtain rfl : j = i := List.mem_singleton.mp hji
      obtain rfl : nd' = nd := by
        rw [hnd] at hnd'
        injection hnd' with h
        exact h.symm
      rw [trySimplify_congr _ _ (fun v hv => hparStab v (hargsne v hv))]
      exact hpat

/-- One step of `simplify` preserves the pass invariant. -/
theorem step_inv {heap : Heap} {P : List Nat} {s s' : SState} {i : Nat} {nd : OpNode}
    (hInv : PassInv heap P s)
    (hiP : i ∉ P)
    (hnd : heap[i]? = some nd)
    (hargs : ∀ v ∈ nd.args, argVal P v)
    (hstep : step heap s i = some s') :
    PassInv heap (P ++ [i]) s' := by
  have hiF : lookupFwd s.fwd i = none := hInv.notP_unforwarded i hiP
  unfold step at hstep
  rw [hnd] at hstep
  cases hcse : lookupCSE s.cse (nd.name, nd.args.map (findV s.fwd)) with
  | some prev =>
    simp only [hcse] at hstep
    obtain ⟨hprevres, _⟩ := hInv.cseSound _ prev hcse
    rw [makeEqualTo_unforwarded hInv.gf hiF (.operation prev)] at hstep
    obtain rfl : { s with fwd := (i, .operation prev) :: s.fwd } = s' := by
      injection hstep
    exact forward_inv hInv hiP hnd hargs
      (hInv.resultUnforwarded prev hprevres)
      (by intro j hj; injection hj with hj; exact hj ▸ hprevres)
      (Or.inl ⟨prev, hcse, rfl⟩)
  | none =>
    simp only [hcse] at hstep
    cases hts : trySimplify s.parity nd.name (nd.args.map (findV s.fwd)) with
    | none => rw [hts] at hstep; exact absurd hstep (by simp)
    | some o =>
      cases o with
      | some target =>
        simp only [hts] at hstep
        obtain ⟨c, rfl⟩ := trySimplify_target_const hts
        rw [makeEqualTo_unforwarded hInv.gf hiF (.constant c)] at hstep
        obtain rfl : { s with fwd := (i, .constant c) :: s.fwd } = s' := by
          injection hstep
        exact forward_inv hInv hiP hnd hargs trivial
          (by intro j hj; exact absurd hj (by simp))
          (Or.inr ⟨hcse, c, hts, rfl⟩)
      | none =>
        simp only [hts] at hstep
        cases hps : (nd.args.map (findV s.fwd)).mapM (parityOf s.parity) with
        | none => rw [hps] at hstep; exact absurd hstep (by simp)
        | some argps =>
          simp only [hps] at hstep
          cases htr : transfer nd.name argps with
          | none => rw [htr] at hstep; exact absurd hstep (by simp)
          | some p =>
            simp only [htr] at hstep
            have hs' :
                { fwd := s.fwd
                  parity := fun j => if j = i then some p else s.parity j
                  cse := ((nd.name, nd.args.map (findV s.fwd)), i) :: s.cse
                  result := s.result ++ [i] : SState } = s' := by
              injection hstep
            rw [← hs']
            exact emit_inv hInv hiP hnd hargs hcse hts hps htr

theorem argEarlier_true {P : List Nat} {v : Value} (h : argEarlier P v = true) : argVal P v := by
  cases v with
  | constant c => trivial
  | operation j =>
    have hj : j ∈ P := of_decide_eq_true h
    exact hj

/-- Running the loop over an SSA-valid suffix preserves the invariant. -/
theorem runSimplify_inv {heap : Heap} :
    ∀ (R P : List Nat) (s s'' : SState),
      PassInv heap P s → ssaFrom heap P R = true →
      runSimplify heap s R = some s'' → PassInv heap (P ++ R) s''
  | [], P, s, s'', hInv, _, hrun => by
    obtain rfl : s = s'' := by injection hrun
    rw [List.append_nil]
    exact hInv
  | i :: R, P, s, s'', hInv, hssa, hrun => by
    unfold ssaFrom at hssa
    cases hnd : heap[i]? with
    | none => rw [hnd] at hssa; exact absurd hssa (by simp)
    | some nd =>
      rw [hnd] at hssa
      have h1 : i ∉ P := by
        have := (Bool.and_eq_true _ _).mp ((Bool.and_eq_true _ _).mp hssa).1
        exact of_decide_eq_true this.1
      have h2 : ∀ v ∈ nd.args, argVal P v := by
        have := (Bool.and_eq_true _ _).mp ((Bool.and_eq_true _ _).mp hssa).1
        intro v hv
        exact argEarlier_true (List.all_eq_true.mp this.2 v hv)
      have h3 : ssaFrom heap (P ++ [i]) R = true :=
        ((Bool.and_eq_true _ _).mp hssa).2
      unfold runSimplify at hrun
      cases hstep : step heap s i with
      | none => rw [hstep] at hrun; exact absurd hrun (by simp)
      | some s1 =>
        rw [hstep] at hrun
        have hInv1 := step_inv hInv h1 hnd h2 hstep
        have hfin := runSimplify_inv R (P ++ [i]) s1 s'' hInv1 h3 hrun
        rw [List.append_assoc, List.singleton_append] at hfin
        exact hfin

/-- The invariant holds initially (nothing processed, fresh nodes). -/
theorem initState_inv (heap : Heap) (block : List Nat) :
    PassInv heap [] (initState [] block) := by
  refine ⟨?_, ?_, ?_, ?_, ?_, ?_, ?_, ?_, ?_, ?_, ?_⟩
  · intro i t h; simp [lookupFwd] at h
  · intro i t j h; simp [lookupFwd] at h
  · intro i t h; simp [lookupFwd] at h
  · rfl
  · intro k j h; simp [lookupCSE] at h
  · intro j hj; simp [initState] at hj
  · intro j hj; simp [initState] at hj
  · intro A j B hAB; exfalso; cases A <;> simp at hAB
  · intro A j B hAB; exfalso; cases A <;> simp at hAB
  · intro i hi; simp [initState] at hi
  · intro j hj; simp [initState] at hj

/-- Package: a successful `simplify` run yields a final state satisfying
the full pass invariant. -/
theorem simplify_inv {heap : Heap} {block res : List Nat} {f' : Fwd}
    (hssa : ssaValid heap block = true)
    (hsimp : simplify heap [] block = some (res, f')) :
    ∃ s'', runSimplify heap (initState [] block) block = some s''
      ∧ s''.result = res ∧ s''.fwd = f' ∧ PassInv heap block s'' := by
  unfold simplify at hsimp
  cases hrun : runSimplify heap (initState [] block) block with
  | none => rw [hrun] at hsimp; exact absurd hsimp (by simp)
  | some s'' =>
    rw [hrun] at hsimp
    have hInv := runSimplify_inv block [] _ s'' (initState_inv heap block) hssa hrun
    rw [List.nil_append] at hInv
    injection hsimp with h
    have h1 : s''.result = res := congrArg Prod.fst h
    have h2 : s''.fwd = f' := congrArg Prod.snd h
    exact ⟨s'', rfl, h1, h2, hInv⟩

theorem opKey_some {heap : Heap} {fwd : Fwd} {i : Nat} {k : OpName × List Value}
    (h : opKey heap fwd i = some k) :
    ∃ nd, heap[i]? = some nd ∧ nd.name = k.1 ∧ nd.args.map (findV fwd) = k.2 := by
  unfold opKey at h
  cases hnd : heap[i]? with
  | none => rw [hnd] at h; exact absurd h (by simp)
  | some nd =>
    rw [hnd] at h
    injection h with h
    exact ⟨nd, rfl, by rw [← h], by rw [← h]⟩

/-- Claim C10: `simplify` performs no dead-code elimination.  Every input
instruction that is not forwarded (neither CSE-matched nor rewritten) is
appended, as the same node, in input order: the output block is exactly the
subsequence of input nodes left unforwarded by the pass. -/
theorem simplify_no_dce {heap : Heap} {block res : List Nat} {f' : Fwd}
    (hssa : ssaValid heap block = true)
    (hsimp : simplify heap [] block = some (res, f')) :
    res = block.filter (fun i => (lookupFwd f' i).isNone) := by
  obtain ⟨s'', _, hres, hfwd, hInv⟩ := simplify_inv hssa hsimp
  rw [← hres, ← hfwd]
  exact hInv.resFilter

/-- Witness for C10 on the source's own example block. -/
theorem simplify_no_dce_witness :
    ssaValid exampleHeap exampleBlock = true
    ∧ simplify exampleHeap [] exampleBlock = some (exampleResult, exampleFwd)
    ∧ exampleResult = exampleBlock.filter (fun i => (lookupFwd exampleFwd i).isNone) :=
  ⟨by decide, rfl,
    @simplify_no_dce exampleHeap exampleBlock exampleResult exampleFwd (by decide) rfl⟩

/-- Claim C6: CSE soundness.  After a successful `simplify` run, any two
instructions of the input block whose CSE keys (operation name, tuple of
resolved argument representatives — stable since argument forwarding is
complete before each visit) coincide resolve via `find` to the same
representative. -/
theorem cse_sound {heap : Heap} {block res : List Nat} {f' : Fwd}
    (hssa : ssaValid heap block = true)
    (hsimp : simplify heap [] block = some (res, f'))
    {i j : Nat} (hi : i ∈ block) (hj : j ∈ block)
    (k : OpName × List Value)
    (hki : opKey heap f' i = some k) (hkj : opKey heap f' j = some k) :
    findV f' (.operation i) = findV f' (.operation j) := by
  obtain ⟨s'', _, hres, hfwd, hInv⟩ := simplify_inv hssa hsimp
  subst hfwd
  obtain ⟨ndi, hndi, hni, hai⟩ := opKey_some hki
  obtain ⟨ndj, hndj, hnj, haj⟩ := opKey_some hkj
  have hc6i := hInv.c6inv i hi ndi hndi
  have hc6j := hInv.c6inv j hj ndj hndj
  have hkeyi : (ndi.name, ndi.args.map (findV s''.fwd)) = k := by
    rw [hni, hai]
  have hkeyj : (ndj.name, ndj.args.map (findV s''.fwd)) = k := by
    rw [hnj, haj]
  cases hcse : lookupCSE s''.cse k with
  | some p =>
    have h1 := hc6i.1 p (by rw [hkeyi]; exact hcse)
    have h2 := hc6j.1 p (by rw [hkeyj]; exact hcse)
    rw [h1, h2]
  | none =>
    obtain ⟨c, htsi, hfi⟩ := hc6i.2 (by rw [hkeyi]; exact hcse)
    obtain ⟨c', htsj, hfj⟩ := hc6j.2 (by rw [hkeyj]; exact hcse)
    have hname : ndi.name = ndj.name := by rw [hni, hnj]
    have hargs : ndi.args.map (findV s''.fwd) = ndj.args.map (findV s''.fwd) := by
      rw [hai, haj]
    rw [hname, hargs] at htsi
    rw [htsi] at htsj
    have hcc : c = c' :=
      Value.constant.inj (Option.some.inj (Option.some.inj htsj))
    rw [hfi, hfj, hcc]

/-- A block with a common subexpression: `v0=getarg(0); v1=getarg(0)`. -/
def dupHeap : Heap := [ ⟨.getarg, [.constant 0]⟩, ⟨.getarg, [.constant 0]⟩ ]

/-- Witness for C6 on a two-instruction block with identical keys. -/
theorem cse_sound_witness :
    ssaValid dupHeap [0, 1] = true
    ∧ simplify dupHeap [] [0, 1] = some ([0], [(1, Value.operation 0)])
    ∧ opKey dupHeap [(1, Value.operation 0)] 0 = some (.getarg, [.constant 0])
    ∧ opKey dupHeap [(1, Value.operation 0)] 1 = some (.getarg, [.constant 0])
    ∧ findV [(1, Value.operation 0)] (.operation 0)
        = findV [(1, Value.operation 0)] (.operation 1) :=
  ⟨by decide, rfl, rfl, rfl,
    @cse_sound dupHeap [0, 1] [0] [(1, Value.operation 0)] (by decide) rfl 0 1
      (by decide) (by decide) (.getarg, [.constant 0]) rfl rfl⟩

/-- Facts about the instruction at any position of an SSA-valid suffix. -/
theorem ssaFrom_decomp {heap : Heap} :
    ∀ (A P : List Nat) (i : Nat) (B : List Nat),
      ssaFrom heap P (A ++ i :: B) = true →
      ∃ nd, heap[i]? = some nd ∧ i ∉ P ++ A ∧ ∀ v ∈ nd.args, argVal (P ++ A) v
  | [], P, i, B, h => by
    rw [List.nil_append] at h
    rw [ssaFrom] at h
    cases hnd : heap[i]? with
    | none => rw [hnd] at h; exact absurd h (by simp)
    | some nd =>
      rw [hnd] at h
      have h1 := (Bool.and_eq_true _ _).mp ((Bool.and_eq_true _ _).mp h).1
      refine ⟨nd, rfl, ?_, ?_⟩
      · rw [List.append_nil]
        exact of_decide_eq_true h1.1
      · intro v hv
        rw [List.append_nil]
        exact argEarlier_true (List.all_eq_true.mp h1.2 v hv)
  | a :: A, P, i, B, h => by
    rw [List.cons_append, ssaFrom] at h
    cases hnd : heap[a]? with
    | none => rw [hnd] at h; exact absurd h (by simp)
    | some nda =>
      rw [hnd] at h
      have h3 : ssaFrom heap (P ++ [a]) (A ++ i :: B) = true :=
        ((Bool.and_eq_true _ _).mp h).2
      obtain ⟨nd, hnd', hni, hargs⟩ := ssaFrom_decomp A (P ++ [a]) i B h3
      rw [List.append_assoc, List.singleton_append] at hni
      refine ⟨nd, hnd', hni, ?_⟩
      intro v hv
      have hva := hargs v hv
      rw [List.append_assoc, List.singleton_append] at hva
      exact hva

/-- Specialization to a whole SSA-valid block. -/
theorem ssaValid_decomp {heap : Heap} {block A B : List Nat} {i : Nat}
    (hssa : ssaValid heap block = true) (hAB : block = A ++ i :: B) :
    ∃ nd, heap[i]? = some nd ∧ i ∉ A ∧ ∀ v ∈ nd.args, argVal A v := by
  unfold ssaValid at hssa
  rw [hAB] at hssa
  obtain ⟨nd, hnd, hni, hargs⟩ := ssaFrom_decomp A [] i B hssa
  rw [List.nil_append] at hni
  refine ⟨nd, hnd, hni, ?_⟩
  intro v hv
  have hva := hargs v hv
  rw [List.nil_append] at hva
  exact hva

/-- Then second pass of the optimizer over its own output: every emitted
instruction misses CSE (emitted keys are pairwise distinct), no rewrite
fires (parities are recomputed identically), and each instruction is
re-emitted with the forwarding state untouched. -/
theorem run2 {heap : Heap} {block : List Nat} {s'' : SState}
    (hssa : ssaValid heap block = true)
    (hInv : PassInv heap block s'') :
    ∀ (B A : List Nat) (t : SState),
      block = A ++ B →
      t.fwd = s''.fwd →
      t.result = A.filter (fun i => (lookupFwd s''.fwd i).isNone) →
      (∀ k j, lookupCSE t.cse k = some j →
          j ∈ A.filter (fun i => (lookupFwd s''.fwd i).isNone)
          ∧ opKey heap s''.fwd j = some k) →
      (∀ j, j ∈ A.filter (fun i => (lookupFwd s''.fwd i).isNone) → ∀ k,
          opKey heap s''.fwd j = some k → lookupCSE t.cse k = some j) →
      (∀ j, j ∈ A.filter (fun i => (lookupFwd s''.fwd i).isNone) →
          t.parity j = s''.parity j) →
      ∃ tfin, runSimplify heap t (B.filter (fun i => (lookupFwd s''.fwd i).isNone)) = some tfin
        ∧ tfin.fwd = s''.fwd
        ∧ tfin.result = (A ++ B).filter (fun i => (lookupFwd s''.fwd i).isNone)
  | [], A, t, hAB, hfwd, hres, hcse1, hcse2, hpar => by
    refine ⟨t, rfl, hfwd, ?_⟩
    rw [List.append_nil]
    exact hres
  | b :: B, A, t, hAB, hfwd, hres, hcse1, hcse2, hpar => by
    cases hb : lookupFwd s''.fwd b with
    | some tb =>
      have hfil : (b :: B).filter (fun i => (lookupFwd s''.fwd i).isNone)
          = B.filter (fun i => (lookupFwd s''.fwd i).isNone) := by
        rw [List.filter_cons]
        simp [hb]
      have hAB' : block = (A ++ [b]) ++ B := by
        rw [hAB, List.append_assoc, List.singleton_append]
      have hfilA : (A ++ [b]).filter (fun i => (lookupFwd s''.fwd i).isNone)
          = A.filter (fun i => (lookupFwd s''.fwd i).isNone) := by
        rw [List.filter_append]
        simp [List.filter_cons, hb]
      obtain ⟨tfin, h1, h2, h3⟩ := run2 hssa hInv B (A ++ [b]) t hAB' hfwd
        (by rw [hfilA]; exact hres)
        (fun k j hk => by rw [hfilA]; exact hcse1 k j hk)
        (fun j hj k hk => hcse2 j (by rw [hfilA] at hj; exact hj) k hk)
        (fun j hj => hpar j (by rw [hfilA] at hj; exact hj))
      refine ⟨tfin, by rw [hfil]; exact h1, h2, ?_⟩
      rw [h3, List.append_assoc, List.singleton_append]
    | none =>
      obtain ⟨tfwd, tpar, tcse, tres⟩ := t
      simp only at hfwd hres hcse1 hcse2 hpar
      subst hfwd
      have hbblock : b ∈ block := by
        rw [hAB]
        exact List.mem_append.mpr (Or.inr (List.mem_cons_self _ _))
      have hbres : b ∈ s''.result := hInv.memResult b hbblock hb
      obtain ⟨ndb, ps, p, hndb, hps, htr, hpb⟩ := hInv.parityRes b hbres
      obtain ⟨ndb', hndb', hbA, _⟩ := ssaValid_decomp hssa hAB
      have hargsRep := hInv.argsRep A b B hAB ndb hndb
      have hcomp : ∀ v ∈ ndb.args.map (findV s''.fwd),
          (∃ c, v = .constant c)
          ∨ ∃ k, v = .operation k
              ∧ k ∈ A.filter (fun i => (lookupFwd s''.fwd i).isNone) := by
        intro v hv
        rcases hargsRep v hv with h | ⟨k, hk, hkres, hkA⟩
        · exact Or.inl h
        · refine Or.inr ⟨k, hk, List.mem_filter.mpr ⟨hkA, ?_⟩⟩
          exact Option.isNone_iff_eq_none.mpr (hInv.resultUnforwarded k hkres)
      have hparcong : ∀ v ∈ ndb.args.map (findV s''.fwd),
          parityOf tpar v = parityOf s''.parity v := by
        intro v hv
        rcases hcomp v hv with ⟨c, rfl⟩ | ⟨k, rfl, hk⟩
        · rfl
        · exact hpar k hk
      have hkeyb : opKey heap s''.fwd b = some (ndb.name, ndb.args.map (findV s''.fwd)) := by
        unfold opKey
        rw [hndb]
        rfl
      have hmiss2 : lookupCSE tcse (ndb.name, ndb.args.map (findV s''.fwd)) = none := by
        cases hq : lookupCSE tcse (ndb.name, ndb.args.map (findV s''.fwd)) with
        | none => rfl
        | some q =>
          exfalso
          obtain ⟨hqA, hqkey⟩ := hcse1 _ q hq
          have hqmem := List.mem_filter.mp hqA
          have hqblock : q ∈ block := by
            rw [hAB]
            exact List.mem_append.mpr (Or.inl hqmem.1)
          have hqres : q ∈ s''.result :=
            hInv.memResult q hqblock (Option.isNone_iff_eq_none.mp hqmem.2)
          have e1 := hInv.cseComplete q hqres _ hqkey
          have e2 := hInv.cseComplete b hbres _ hkeyb
          rw [e1] at e2
          obtain rfl : q = b := by injection e2
          exact hbA hqmem.1
      have hts2 : trySimplify tpar ndb.name (ndb.args.map (findV s''.fwd)) = some none := by
        rw [trySimplify_congr _ _ hparcong]
        exact hInv.noPattern b hbres ndb hndb
      have hps2 : (ndb.args.map (findV s''.fwd)).mapM (parityOf tpar) = some ps := by
        rw [mapM_parity_congr _ hparcong]
        exact hps
      have hstep : step heap ⟨s''.fwd, tpar, tcse, tres⟩ b
          = some ⟨s''.fwd, fun j => if j = b then some p else tpar j,
              ((ndb.name, ndb.args.map (findV s''.fwd)), b) :: tcse, tres ++ [b]⟩ := by
        unfold step
        rw [hndb]
        simp only [hmiss2, hts2, hps2, htr]
      have hfil : (b :: B).filter (fun i => (lookupFwd s''.fwd i).isNone)
          = b :: B.filter (fun i => (lookupFwd s''.fwd i).isNone) := by
        rw [List.filter_cons]
        simp [hb]
      have hAB' : block = (A ++ [b]) ++ B := by
        rw [hAB, List.append_assoc, List.singleton_append]
      have hfilA : (A ++ [b]).filter (fun i => (lookupFwd s''.fwd i).isNone)
          = A.filter (fun i => (lookupFwd s''.fwd i).isNone) ++ [b] := by
        rw [List.filter_append]
        simp [List.filter_cons, hb]
      have hbnotfil : b ∉ A.filter (fun i => (lookupFwd s''.fwd i).isNone) := by
        intro hmem
        exact hbA (List.mem_filter.mp hmem).1
      obtain ⟨tfin, h1, h2, h3⟩ := run2 hssa hInv B (A ++ [b])
        ⟨s''.fwd, fun j => if j = b then some p else tpar j,
          ((ndb.name, ndb.args.map (findV s''.fwd)), b) :: tcse, tres ++ [b]⟩
        hAB' rfl
        (by
          simp only
          rw [hfilA, hres])
        (by
          intro k j hk
          simp only at hk
          rw [lookupCSE_cons] at hk
          rw [hfilA]
          by_cases hkk : k = (ndb.name, ndb.args.map (findV s''.fwd))
          · rw [if_pos hkk] at hk
            obtain rfl : b = j := by injection hk
            refine ⟨List.mem_append.mpr (Or.inr (List.mem_singleton.mpr rfl)), ?_⟩
            rw [hkk]
            exact hkeyb
          · rw [if_neg hkk] at hk
            obtain ⟨hjA, hjkey⟩ := hcse1 k j hk
            exact ⟨List.mem_append.mpr (Or.inl hjA), hjkey⟩)
        (by
          intro j hj k hk
          simp only
          rw [lookupCSE_cons]
          rw [hfilA] at hj
          rcases List.mem_append.mp hj with hjA | hjb
          · by_cases hkk : k = (ndb.name, ndb.args.map (findV s''.fwd))
            · exfalso
              have hjblock : j ∈ block := by
                rw [hAB]
                exact List.mem_append.mpr (Or.inl (List.mem_filter.mp hjA).1)
              have hjres : j ∈ s''.result :=
                hInv.memResult j hjblock
                  (Option.isNone_iff_eq_none.mp (List.mem_filter.mp hjA).2)
              have e1 := hInv.cseComplete j hjres _ hk
              have e2 := hInv.cseComplete b hbres _ hkeyb
              rw [hkk] at e1
              rw [e1] at e2
              obtain rfl : j = b := by injection e2
              exact hbA (List.mem_filter.mp hjA).1
            · rw [if_neg hkk]
              exact hcse2 j hjA k hk
          · obtain rfl : j = b := List.mem_singleton.mp hjb
            rw [hkeyb] at hk
            obtain rfl : (ndb.name, ndb.args.map (findV s''.fwd)) = k := by injection hk
            rw [if_pos rfl])
        (by
          intro j hj
          simp only
          rw [hfilA] at hj
          rcases List.mem_append.mp hj with hjA | hjb
          · have hjb : j ≠ b := by
              intro hjb
              exact hbnotfil (hjb ▸ hjA)
            rw [if_neg hjb]
            exact hpar j hjA
          · obtain rfl : j = b := List.mem_singleton.mp hjb
            rw [if_pos rfl]
            exact hpb.symm)
      refine ⟨tfin, ?_, h2, ?_⟩
      · rw [hfil]
        unfold runSimplify
        rw [hstep]
        exact h1
      · rw [h3, List.append_assoc, List.singleton_append]

/-- Claim C5: the optimizer is idempotent.  If `simplify` succeeds on an
SSA-valid block, running it again on its own output (in the mutated
forwarding state the first run left behind) returns a structurally
identical block — in fact the very same node sequence — and installs no new
forwarding. -/
theorem simplify_idempotent {heap : Heap} {block res : List Nat} {f' : Fwd}
    (hssa : ssaValid heap block = true)
    (hsimp : simplify heap [] block = some (res, f')) :
    simplify heap f' res = some (res, f') := by
  obtain ⟨s'', hrun, hres, hfwd, hInv⟩ := simplify_inv hssa hsimp
  subst hres
  subst hfwd
  have hfil : s''.result = block.filter (fun i => (lookupFwd s''.fwd i).isNone) :=
    hInv.resFilter
  obtain ⟨tfin, h1, h2, h3⟩ := run2 hssa hInv block [] (initState s''.fwd s''.result)
    (List.nil_append block).symm rfl rfl
    (by intro k j hk; simp [lookupCSE] at hk)
    (by intro j hj; simp at hj)
    (by intro j hj; simp at hj)
  unfold simplify
  rw [hfil]
  rw [hfil] at h1
  simp only [h1]
  rw [List.nil_append] at h3
  rw [h2, h3]

/-- Witness for C5 on the masking block. -/
theorem simplify_idempotent_witness :
    ssaValid maskHeap maskBlock = true
    ∧ simplify maskHeap [] maskBlock = some ([0, 1], [(2, Value.constant 0)])
    ∧ simplify maskHeap [(2, Value.constant 0)] [0, 1]
        = some ([0, 1], [(2, Value.constant 0)]) :=
  ⟨by decide, rfl,
    @simplify_idempotent maskHeap maskBlock [0, 1] [(2, Value.constant 0)] (by decide) rfl⟩

/-! ## Semantic layer for the equivalence proof (C1)

`parityOk p o` says the abstract fact `p` is a sound description of the
(optional) concrete value `o`. -/

def parityOk (p : Parity) (o : Option Int) : Prop :=
  (p = .even → ∀ n, o = some n → n % 2 = 0) ∧ (p = .odd → ∀ n, o = some n → n % 2 = 1)

theorem parityOk_none (p : Parity) : parityOk p none :=
  ⟨fun _ n hn => absurd hn (by simp), fun _ n hn => absurd hn (by simp)⟩

theorem parityOk_top (o : Option Int) : parityOk .top o :=
  ⟨fun h => absurd h (by decide), fun h => absurd h (by decide)⟩

theorem parityOk_const (c : Int) : parityOk (Parity.const c) (some c) := by
  unfold Parity.const
  by_cases h : c % 2 = 0
  · rw [if_pos h]
    refine ⟨fun _ n hn => ?_, fun hp => absurd hp (by decide)⟩
    injection hn with hn
    omega
  · rw [if_neg h]
    refine ⟨fun hp => absurd hp (by decide), fun _ n hn => ?_⟩
    injection hn with hn
    omega

theorem parityOk_add {pa pb : Parity} {na nb : Int}
    (ha : parityOk pa (some na)) (hb : parityOk pb (some nb)) :
    parityOk (Parity.add pa pb) (some (na + nb)) := by
  have hae := ha.1
  have hao := ha.2
  have hbe := hb.1
  have hbo := hb.2
  cases pa <;> cases pb <;>
    constructor <;>
      intro hp m hm <;>
        first
          | exact absurd hp (by decide)
          | (injection hm with hm
             subst hm
             first
               | (have h1 := hae rfl na rfl
                  have h2 := hbe rfl nb rfl
                  omega)
               | (have h1 := hae rfl na rfl
                  have h2 := hbo rfl nb rfl
                  omega)
               | (have h1 := hao rfl na rfl
                  have h2 := hbe rfl nb rfl
                  omega)
               | (have h1 := hao rfl na rfl
                  have h2 := hbo rfl nb rfl
                  omega))

theorem parityOk_lshift {pa pb : Parity} {na nb n : Int}
    (hb : parityOk pb (some nb))
    (hnb : ¬ nb < 0) (hn : n = na * 2 ^ nb.toNat) :
    parityOk (Parity.lshift pa pb) (some n) := by
  constructor
  · intro hp m hm
    injection hm with hm
    subst hm
    have hpb : pb = .odd := by
      cases pa <;> cases pb <;> first | rfl | exact absurd hp (by decide)
    have hnbodd : nb % 2 = 1 := hb.2 hpb nb rfl
    obtain ⟨k, hk⟩ : ∃ k, nb.toNat = k + 1 := ⟨nb.toNat - 1, by omega⟩
    have h2 : n = (na * 2 ^ k) * 2 := by
      rw [hn, hk, pow_succ]
      ring
    omega
  · intro hp
    exfalso
    cases pa <;> cases pb <;> exact absurd hp (by decide)

theorem land_one_of_even {n : Int} (h : n % 2 = 0) : Int.land n 1 = 0 := by
  rw [land_one_eq_emod, h]

theorem land_one_of_odd {n : Int} (h : n % 2 = 1) : Int.land n 1 = 1 := by
  rw [land_one_eq_emod, h]

theorem findV_nil (v : Value) : findV [] v = v := by
  cases v <;> rfl

/-! ### SSA blocks have no duplicate instructions -/

theorem ssaFrom_nodup {heap : Heap} :
    ∀ (R P : List Nat), ssaFrom heap P R = true → R.Nodup ∧ ∀ i ∈ R, i ∉ P
  | [], P, _ => ⟨List.nodup_nil, by intro i hi; simp at hi⟩
  | i :: R, P, h => by
    rw [ssaFrom] at h
    cases hnd : heap[i]? with
    | none => rw [hnd] at h; exact absurd h (by simp)
    | some nd =>
      rw [hnd] at h
      have h1 := (Bool.and_eq_true _ _).mp ((Bool.and_eq_true _ _).mp h).1
      have hiP : i ∉ P := of_decide_eq_true h1.1
      have h3 : ssaFrom heap (P ++ [i]) R = true := ((Bool.and_eq_true _ _).mp h).2
      obtain ⟨hnod, hmem⟩ := ssaFrom_nodup R (P ++ [i]) h3
      refine ⟨List.nodup_cons.mpr ⟨?_, hnod⟩, ?_⟩
      · intro hiR
        exact (hmem i hiR) (List.mem_append.mpr (Or.inr (List.mem_singleton.mpr rfl)))
      · intro x hx
        rcases List.mem_cons.mp hx with rfl | hxR
        · exact hiP
        · intro hxP
          exact (hmem x hxR) (List.mem_append.mpr (Or.inl hxP))

theorem ssaValid_nodup {heap : Heap} {block : List Nat}
    (h : ssaValid heap block = true) : block.Nodup :=
  (ssaFrom_nodup block [] h).1

/-- In a duplicate-free list, the decomposition at an element is unique. -/
theorem nodup_mid_decomp {α : Type} [DecidableEq α] :
    ∀ {Q S X Y : List α} {j : α}, Q ++ j :: S = X ++ j :: Y →
      j ∉ Q → j ∉ X → Q = X ∧ S = Y
  | [], S, [], Y, j, h, _, _ => ⟨rfl, by injection h⟩
  | [], S, x :: X, Y, j, h, hQ, hX => by
    exfalso
    have h1 : j = x := by injection h with h1
    rw [h1] at hX
    exact hX (List.mem_cons_self _ _)
  | q :: Q, S, [], Y, j, h, hQ, hX => by
    exfalso
    have h1 : q = j := by injection h with h1
    rw [← h1] at hQ
    exact hQ (List.mem_cons_self _ _)
  | q :: Q, S, x :: X, Y, j, h, hQ, hX => by
    have h1 : q = x := by injection h with h1
    have h2 : Q ++ j :: S = X ++ j :: Y := by injection h
    obtain ⟨hQX, hSY⟩ := nodup_mid_decomp h2
      (fun hm => hQ (List.mem_cons_of_mem _ hm))
      (fun hm => hX (List.mem_cons_of_mem _ hm))
    exact ⟨by rw [h1, hQX], hSY⟩

/-! ### Splitting and framing the interpreter run -/

theorem interpRun_split {heap : Heap} {fwd : Fwd} {args : List Int} :
    ∀ (X : List Nat) {Y : List Nat} {V W : Nat → Option Int},
      interpRun heap fwd args V (X ++ Y) = some W →
      ∃ V₁, interpRun heap fwd args V X = some V₁ ∧ interpRun heap fwd args V₁ Y = some W
  | [], Y, V, W, h => ⟨V, rfl, h⟩
  | x :: X, Y, V, W, h => by
    rw [List.cons_append] at h
    rw [interpRun] at h
    cases hs : interpStep heap fwd args V x with
    | none => rw [hs] at h; exact absurd h (by simp)
    | some V' =>
      rw [hs] at h
      obtain ⟨V₁, h1, h2⟩ := interpRun_split X h
      refine ⟨V₁, ?_, h2⟩
      rw [interpRun, hs]
      exact h1

theorem interpStep_run {heap : Heap} {fwd : Fwd} {args : List Int}
    {V V' : Nat → Option Int} {i : Nat} {nd : OpNode}
    (hnd : heap[i]? = some nd)
    (h : interpStep heap fwd args V i = some V') :
    interpOp fwd args V i nd = some V' := by
  unfold interpStep at h
  rw [hnd] at h
  exact h

/-- The shape of one interpreter step: skip, or write exactly one entry. -/
theorem interpOp_shape {fwd : Fwd} {args : List Int}
    {V V' : Nat → Option Int} {i : Nat} {nd : OpNode}
    (h : interpOp fwd args V i nd = some V') :
    V' = V ∨ ∃ n, V' = fun j => if j = i then some n else V j := by
  unfold interpOp at h
  split at h
  · split at h
    · exact absurd h (by simp)
    · injection h with h; exact Or.inr ⟨_, h.symm⟩
  · split at h
    · injection h with h; exact Or.inr ⟨_, h.symm⟩
    · exact absurd h (by simp)
  · split at h
    · split at h
      · exact absurd h (by simp)
      · injection h with h; exact Or.inr ⟨_, h.symm⟩
    · exact absurd h (by simp)
  · split at h
    · injection h with h; exact Or.inr ⟨_, h.symm⟩
    · exact absurd h (by simp)
  · split at h
    · injection h with h; exact Or.inr ⟨_, h.symm⟩
    · exact absurd h (by simp)
  · injection h with h; exact Or.inl h.symm

theorem interpStep_frame {heap : Heap} {fwd : Fwd} {args : List Int}
    {V V' : Nat → Option Int} {i : Nat}
    (h : interpStep heap fwd args V i = some V') :
    ∀ k, k ≠ i → V' k = V k := by
  intro k hk
  unfold interpStep at h
  cases hnd : heap[i]? with
  | none => rw [hnd] at h; exact absurd h (by simp)
  | some nd =>
    rw [hnd] at h
    rcases interpOp_shape h with rfl | ⟨n, rfl⟩
    · rfl
    · exact if_neg hk

theorem interpRun_frame {heap : Heap} {fwd : Fwd} {args : List Int} :
    ∀ (l : List Nat) {V W : Nat → Option Int},
      interpRun heap fwd args V l = some W →
      ∀ k, k ∉ l → W k = V k
  | [], V, W, h, k, _ => by
    obtain rfl : V = W := by injection h
    rfl
  | x :: l, V, W, h, k, hk => by
    rw [interpRun] at h
    cases hs : interpStep heap fwd args V x with
    | none => rw [hs] at h; exact absurd h (by simp)
    | some V' =>
      rw [hs] at h
      have h1 := interpRun_frame l h k (fun hm => hk (List.mem_cons_of_mem _ hm))
      have h2 := interpStep_frame hs k (fun he => hk (he ▸ List.mem_cons_self _ _))
      rw [h1, h2]

/-- The value computed by one interpreter case, as a relation on the
resolved shape. -/
inductive EvalR (fwd : Fwd) (args : List Int) (V : Nat → Option Int) : OpNode → Int → Prop
  | getarg {nd : OpNode} {idx n : Int} :
      nd.name = .getarg → nd.args.map (findV fwd) = [.constant idx] →
      pyIndex args idx = some n → EvalR fwd args V nd n
  | add {nd : OpNode} {a b : Value} {va vb : Int} :
      nd.name = .add → nd.args.map (findV fwd) = [a, b] →
      valueOf V a = some va → valueOf V b = some vb →
      EvalR fwd args V nd (va + vb)
  | lshift {nd : OpNode} {a b : Value} {va vb n : Int} :
      nd.name = .lshift → nd.args.map (findV fwd) = [a, b] →
      valueOf V a = some va → valueOf V b = some vb →
      pyLshift va vb = some n → EvalR fwd args V nd n
  | bitand {nd : OpNode} {a b : Value} {va vb : Int} :
      nd.name = .bitand → nd.args.map (findV fwd) = [a, b] →
      valueOf V a = some va → valueOf V b = some vb →
      EvalR fwd args V nd (pyAnd va vb)
  | dummy {nd : OpNode} {a : Value} {va : Int} :
      nd.name = .dummy → nd.args.map (findV fwd) = [a] →
      valueOf V a = some va → EvalR fwd args V nd va

/-- The shapes on which the interpreter's `match` fires. -/
def fireShape (nd : OpNode) (fwd : Fwd) : Prop :=
  match nd.name, nd.args.map (findV fwd) with
  | .getarg, [.constant _] => True
  | .add, [_, _] => True
  | .lshift, [_, _] => True
  | .bitand, [_, _] => True
  | .dummy, [_] => True
  | _, _ => False

theorem fireShape_getarg {nd : OpNode} {fwd : Fwd} {c : Int} (hn : nd.name = .getarg)
    (ha : nd.args.map (findV fwd) = [.constant c]) : fireShape nd fwd := by
  unfold fireShape
  rw [hn, ha]
  trivial

theorem fireShape_two {nd : OpNode} {fwd : Fwd} {a b : Value}
    (hn : nd.name = .add ∨ nd.name = .lshift ∨ nd.name = .bitand)
    (ha : nd.args.map (findV fwd) = [a, b]) : fireShape nd fwd := by
  unfold fireShape
  rcases hn with hn | hn | hn <;> rw [hn, ha] <;> trivial

theorem fireShape_dummy {nd : OpNode} {fwd : Fwd} {a : Value} (hn : nd.name = .dummy)
    (ha : nd.args.map (findV fwd) = [a]) : fireShape nd fwd := by
  unfold fireShape
  rw [hn, ha]
  trivial

/-- Full characterization of one interpreter step. -/
theorem interpOp_cases {fwd : Fwd} {args : List Int}
    {V V' : Nat → Option Int} {i : Nat} {nd : OpNode}
    (h : interpOp fwd args V i nd = some V') :
    (V' = V ∧ ¬ fireShape nd fwd)
    ∨ ∃ n, (V' = fun j => if j = i then some n else V j) ∧ EvalR fwd args V nd n := by
  unfold interpOp at h
  split at h
  · rename_i heqn heqa
    split at h
    · exact absurd h (by simp)
    · rename_i v hpy
      injection h with h
      exact Or.inr ⟨v, h.symm, EvalR.getarg heqn heqa hpy⟩
  · rename_i heqn heqa
    split at h
    · rename_i va vb hva hvb
      injection h with h
      exact Or.inr ⟨va + vb, h.symm, EvalR.add heqn heqa hva hvb⟩
    · exact absurd h (by simp)
  · rename_i heqn heqa
    split at h
    · rename_i va vb hva hvb
      split at h
      · exact absurd h (by simp)
      · rename_i n hls
        injection h with h
        exact Or.inr ⟨n, h.symm, EvalR.lshift heqn heqa hva hvb hls⟩
    · exact absurd h (by simp)
  · rename_i heqn heqa
    split at h
    · rename_i va vb hva hvb
      injection h with h
      exact Or.inr ⟨pyAnd va vb, h.symm, EvalR.bitand heqn heqa hva hvb⟩
    · exact absurd h (by simp)
  · rename_i heqn heqa
    split at h
    · rename_i va hva
      injection h with h
      exact Or.inr ⟨va, h.symm, EvalR.dummy heqn heqa hva⟩
    · exact absurd h (by simp)
  · rename_i hg ha hl hb hd
    injection h with h
    refine Or.inl ⟨h.symm, ?_⟩
    intro hfs
    unfold fireShape at hfs
    split at hfs
    · rename_i heqn heqa
      exact hg _ heqn heqa
    · rename_i heqn heqa
      exact ha _ _ heqn heqa
    · rename_i heqn heqa
      exact hl _ _ heqn heqa
    · rename_i heqn heqa
      exact hb _ _ heqn heqa
    · rename_i heqn heqa
      exact hd _ heqn heqa
    · exact hfs

/-! ### Inversion lemmas for the pattern rewrite, the transfer dispatch and
the parity mapM -/

theorem trySimplify_some_inv {parity : Nat → Option Parity} {name : OpName}
    {rargs : List Value} {c : Int}
    (h : trySimplify parity name rargs = some (some (.constant c))) :
    (name = .bitand ∧ ∃ arg p, bitandArg rargs = some arg ∧ parityOf parity arg = some p
      ∧ ((p = .even ∧ c = 0) ∨ (p = .odd ∧ c = 1)))
    ∨ (name = .add ∧ ∃ l r, rargs = [.constant l, .constant r] ∧ c = l + r) := by
  unfold trySimplify at h
  split at h
  · rename_i arg heq
    cases hp : parityOf parity arg with
    | none => rw [hp] at h; exact absurd h (by simp)
    | some p =>
      rw [hp] at h
      have h2 : (if p = Parity.even then pure (some (Value.constant 0))
          else if p = Parity.odd then pure (some (Value.constant 1))
          else pure none : Option (Option Value)) = some (some (Value.constant c)) := h
      by_cases he : p = .even
      · rw [if_pos he] at h2
        have h3 := Value.constant.inj (Option.some.inj (Option.some.inj h2))
        exact Or.inl ⟨rfl, arg, p, heq, hp, Or.inl ⟨he, h3.symm⟩⟩
      · rw [if_neg he] at h2
        by_cases ho : p = .odd
        · rw [if_pos ho] at h2
          have h3 := Value.constant.inj (Option.some.inj (Option.some.inj h2))
          exact Or.inl ⟨rfl, arg, p, heq, hp, Or.inr ⟨ho, h3.symm⟩⟩
        · rw [if_neg ho] at h2
          have h4 : some (none : Option Value) = some (some (Value.constant c)) := h2
          exact absurd (Option.some.inj h4) (by simp)
  · split at h
    · have h3 := Value.constant.inj (Option.some.inj (Option.some.inj h))
      exact Or.inr ⟨rfl, _, _, rfl, h3.symm⟩
    · exact absurd (Option.some.inj h) (by simp)

theorem transfer_inv {name : OpName} {argps : List Parity} {p : Parity}
    (h : transfer name argps = some p) :
    (name = .getarg ∧ p = .top)
    ∨ (name = .dummy ∧ p = .top)
    ∨ (name = .add ∧ ∃ pa pb, argps = [pa, pb] ∧ p = Parity.add pa pb)
    ∨ (name = .lshift ∧ ∃ pa pb, argps = [pa, pb] ∧ p = Parity.lshift pa pb) := by
  unfold transfer at h
  split at h
  · injection h with h
    exact Or.inl ⟨rfl, h.symm⟩
  · injection h with h
    exact Or.inr (Or.inl ⟨rfl, h.symm⟩)
  · rename_i pa pb
    injection h with h
    exact Or.inr (Or.inr (Or.inl ⟨rfl, pa, pb, rfl, h.symm⟩))
  · rename_i pa pb
    injection h with h
    exact Or.inr (Or.inr (Or.inr ⟨rfl, pa, pb, rfl, h.symm⟩))
  · exact absurd h (by simp)

theorem mapM_cons_inv {f : Value → Option Parity} {x : Value} {l : List Value}
    {ps : List Parity}
    (h : (x :: l).mapM f = some ps) :
    ∃ p ps', f x = some p ∧ l.mapM f = some ps' ∧ ps = p :: ps' := by
  rw [List.mapM_cons] at h
  cases hx : f x with
  | none => rw [hx] at h; exact absurd h (by simp)
  | some p =>
    rw [hx] at h
    cases hl : l.mapM f with
    | none => rw [hl] at h; exact absurd h (by simp)
    | some ps' =>
      rw [hl] at h
      have h2 : some (p :: ps') = some ps := h
      exact ⟨p, ps', rfl, rfl, (Option.some.inj h2).symm⟩

theorem mapM_two_inv {f : Value → Option Parity} {x y : Value} {ps : List Parity}
    (h : [x, y].mapM f = some ps) :
    ∃ pa pb, ps = [pa, pb] ∧ f x = some pa ∧ f y = some pb := by
  obtain ⟨pa, ps₁, hx, h1, rfl⟩ := mapM_cons_inv h
  obtain ⟨pb, ps₂, hy, h2, rfl⟩ := mapM_cons_inv h1
  have h3 : some [] = some ps₂ := h2
  obtain rfl : ([] : List Parity) = ps₂ := Option.some.inj h3
  exact ⟨pa, pb, rfl, hx, hy⟩

theorem interp_parts {heap : Heap} {fwd : Fwd} {block : List Nat} {args : List Int} {v : Int}
    (h : interp heap fwd block args = some v) :
    ∃ V last, interpRun heap fwd args (fun _ => none) block = some V
      ∧ block.getLast? = some last ∧ V last = some v := by
  unfold interp at h
  cases hr : interpRun heap fwd args (fun _ => none) block with
  | none => rw [hr] at h; exact absurd h (by simp)
  | some V =>
    rw [hr] at h
    cases hl : block.getLast? with
    | none => rw [hl] at h; exact absurd h (by simp)
    | some last =>
      rw [hl] at h
      exact ⟨V, last, rfl, rfl, h⟩

theorem bitandArg_inv {x y arg : Value} (h : bitandArg [x, y] = some arg) :
    (arg = x ∧ y = .constant 1) ∨ (arg = y ∧ x = .constant 1) := by
  unfold bitandArg at h
  split at h
  · rename_i a heq
    injection heq with h1 h2
    injection h2 with h2
    injection h with h
    exact Or.inl ⟨h.symm.trans h1.symm, h2⟩
  · rename_i a hne heq
    injection heq with h1 h2
    injection h2 with h2
    injection h with h
    exact Or.inr ⟨h.symm.trans h2.symm, h1⟩
  · exact absurd h (by simp)

/-- The main semantic invariant for C1, by strong induction over block
position: (a) an instruction forwarded to a constant evaluated (originally)
to that constant; (b) an instruction forwarded to an emitted instruction
evaluated to whatever the optimized run assigns that instruction; (c) the
recorded parity facts soundly describe the optimized run's values. -/
theorem sem_inv {heap : Heap} {block : List Nat} {s'' : SState} {args : List Int}
    {V W : Nat → Option Int}
    (hssa : ssaValid heap block = true)
    (hInv : PassInv heap block s'')
    (hV : interpRun heap [] args (fun _ => none) block = some V)
    (hW : interpRun heap s''.fwd args (fun _ => none) s''.result = some W) :
    ∀ (N : Nat) (A : List Nat) (i : Nat) (B : List Nat),
      A.length < N → block = A ++ i :: B →
      ((∀ c, findV s''.fwd (.operation i) = .constant c → ∀ n, V i = some n → n = c)
        ∧ (∀ k, findV s''.fwd (.operation i) = .operation k → ∀ n, V i = some n → W k = some n)
        ∧ (i ∈ s''.result → ∀ p, s''.parity i = some p → parityOk p (W i))) := by
  have hnodup : block.Nodup := ssaValid_nodup hssa
  have hresnodup : s''.result.Nodup := by
    rw [hInv.resFilter]
    exact hnodup.filter _
  have hressub : ∀ x, x ∈ s''.result → x ∈ block := by
    intro x hx
    rw [hInv.resFilter] at hx
    exact (List.mem_filter.mp hx).1
  have hWsplit : ∀ k ndk, k ∈ s''.result → heap[k]? = some ndk →
      ∃ (Ak Bk : List Nat) (W₁ W₂ : Nat → Option Int),
        block = Ak ++ k :: Bk ∧ k ∉ Ak
        ∧ interpOp s''.fwd args W₁ k ndk = some W₂
        ∧ W k = W₂ k
        ∧ W₁ k = none
        ∧ (∀ k', k' ∈ s''.result → k' ∈ Ak → W₁ k' = W k') := by
    intro k ndk hkres hndk
    have hkblock : k ∈ block := hressub k hkres
    obtain ⟨Ak, Bk, hAkB⟩ := List.append_of_mem hkblock
    obtain ⟨ndk', hndk', hkAk, _⟩ := ssaValid_decomp hssa hAkB
    obtain ⟨res₁, res₂, hres⟩ := List.append_of_mem hkres
    have hW' : interpRun heap s''.fwd args (fun _ => none) (res₁ ++ k :: res₂) = some W :=
      hres ▸ hW
    obtain ⟨W₁, hWA, hWrest⟩ := interpRun_split res₁ hW'
    rw [interpRun] at hWrest
    obtain ⟨W₂, hstepW⟩ : ∃ W₂, interpStep heap s''.fwd args W₁ k = some W₂ := by
      cases hs : interpStep heap s''.fwd args W₁ k with
      | none => rw [hs] at hWrest; exact absurd hWrest (by simp)
      | some W₂ => exact ⟨W₂, rfl⟩
    rw [hstepW] at hWrest
    have hOpW : interpOp s''.fwd args W₁ k ndk = some W₂ := interpStep_run hndk hstepW
    have hresnodup' : (res₁ ++ k :: res₂).Nodup := hres ▸ hresnodup
    have hkres₂ : k ∉ res₂ := (List.nodup_cons.mp (List.nodup_append.mp hresnodup').2.1).1
    have hkres₁ : k ∉ res₁ := by
      intro hm
      exact (List.nodup_append.mp hresnodup').2.2 hm (List.mem_cons_self _ _)
    have hWkW₂ : W k = W₂ k := interpRun_frame res₂ hWrest k hkres₂
    have hkpred : (lookupFwd s''.fwd k).isNone = true :=
      Option.isNone_iff_eq_none.mpr (hInv.resultUnforwarded k hkres)
    have hkfA : k ∉ Ak.filter (fun x => (lookupFwd s''.fwd x).isNone) := by
      intro hm
      exact hkAk (List.mem_filter.mp hm).1
    have hsplit2 : res₁ ++ k :: res₂
        = Ak.filter (fun x => (lookupFwd s''.fwd x).isNone)
          ++ k :: Bk.filter (fun x => (lookupFwd s''.fwd x).isNone) := by
      rw [← hres, hInv.resFilter, hAkB, List.filter_append, List.filter_cons]
      simp [hkpred]
    obtain ⟨hres₁eq, hres₂eq⟩ := nodup_mid_decomp hsplit2 hkres₁ hkfA
    have hAkdisj : List.Disjoint Ak (k :: Bk) :=
      (List.nodup_append.mp (hAkB ▸ hnodup)).2.2
    refine ⟨Ak, Bk, W₁, W₂, hAkB, hkAk, hOpW, hWkW₂, interpRun_frame res₁ hWA k hkres₁, ?_⟩
    intro k' h1 h2
    have hk'k : k' ≠ k := fun he => hkAk (he ▸ h2)
    have hk'B : k' ∉ res₂ := by
      rw [hres₂eq]
      intro hm
      exact hAkdisj h2 (List.mem_cons_of_mem _ (List.mem_filter.mp hm).1)
    have hk'pred : (lookupFwd s''.fwd k').isNone = true :=
      Option.isNone_iff_eq_none.mpr (hInv.resultUnforwarded k' h1)
    rw [interpRun_frame res₂ hWrest k' hk'B, interpStep_frame hstepW k' hk'k]
  intro N
  induction N with
  | zero =>
    intro A i B h hAB
    omega
  | succ N ih =>
    intro A i B hlen hAB
    obtain ⟨nd, hnd, hiA, hargsA⟩ := ssaValid_decomp hssa hAB
    have hnodup' : (A ++ i :: B).Nodup := hAB ▸ hnodup
    have hAdisj : List.Disjoint A (i :: B) := (List.nodup_append.mp hnodup').2.2
    have hiB : i ∉ B := (List.nodup_cons.mp (List.nodup_append.mp hnodup').2.1).1
    have hiblock : i ∈ block := by
      rw [hAB]
      exact List.mem_append.mpr (Or.inr (List.mem_cons_self _ _))
    have hV' : interpRun heap [] args (fun _ => none) (A ++ i :: B) = some V := hAB ▸ hV
    obtain ⟨V₁, hVA, hVrest⟩ := interpRun_split A hV'
    rw [interpRun] at hVrest
    obtain ⟨V₂, hstepV⟩ : ∃ V₂, interpStep heap [] args V₁ i = some V₂ := by
      cases hs : interpStep heap [] args V₁ i with
      | none => rw [hs] at hVrest; exact absurd hVrest (by simp)
      | some V₂ => exact ⟨V₂, rfl⟩
    rw [hstepV] at hVrest
    have hViV₂ : V i = V₂ i := interpRun_frame B hVrest i hiB
    have hV₁i : V₁ i = none := interpRun_frame A hVA i hiA
    have hOpV : interpOp [] args V₁ i nd = some V₂ := interpStep_run hnd hstepV
    have hraw : nd.args.map (findV []) = nd.args := by
      have h1 : nd.args.map (findV []) = nd.args.map (fun v => v) :=
        List.map_congr_left (fun v _ => findV_nil v)
      rw [h1]
      exact List.map_id' nd.args
    have hfired : ∀ n, V i = some n → EvalR [] args V₁ nd n := by
      intro n hVi
      rcases interpOp_cases hOpV with ⟨heq, _⟩ | ⟨n', hupd, hE⟩
      · rw [hViV₂, heq, hV₁i] at hVi
        exact absurd hVi (by simp)
      · have h2 : V₂ i = some n' := by rw [hupd]; simp
        rw [hViV₂, h2] at hVi
        obtain rfl : n' = n := Option.some.inj hVi
        exact hE
    have hopnd : ∀ a ∈ nd.args, ∀ va, valueOf V₁ a = some va →
        (∀ c, findV s''.fwd a = .constant c → va = c)
        ∧ (∀ k', findV s''.fwd a = .operation k' → W k' = some va) := by
      intro a ha va hva
      cases a with
      | constant c0 =>
        have hva' : some c0 = some va := hva
        obtain rfl : c0 = va := Option.some.inj hva'
        constructor
        · intro c hc
          rw [findV_constant] at hc
          exact (Value.constant.inj hc).symm ▸ rfl
        · intro k' hk'
          rw [findV_constant] at hk'
          exact absurd hk' (by simp)
      | operation m =>
        have hmA : m ∈ A := hargsA _ ha
        have hmi : m ≠ i := fun he => hiA (he ▸ hmA)
        have hmB : m ∉ B := fun hm => hAdisj hmA (List.mem_cons_of_mem _ hm)
        obtain ⟨A₁, B₁, hA₁⟩ := List.append_of_mem hmA
        have hblockm : block = A₁ ++ m :: (B₁ ++ i :: B) := by
          rw [hAB, hA₁]
          simp
        have hlenm : A₁.length < N := by
          have h1 : A.length = A₁.length + B₁.length + 1 := by
            rw [hA₁]
            simp
            omega
          omega
        have ihm := ih A₁ m (B₁ ++ i :: B) hlenm hblockm
        have hVm : V m = some va := by
          have h1 : V₁ m = some va := hva
          have h2 : V₂ m = V₁ m := interpStep_frame hstepV m hmi
          have h3 : V m = V₂ m := interpRun_frame B hVrest m hmB
          rw [h3, h2, h1]
        exact ⟨fun c hc => ihm.1 c hc va hVm, fun k' hk' => ihm.2.1 k' hk' va hVm⟩
    have hcore : ∀ k ndk, k ∈ s''.result → heap[k]? = some ndk →
        ndk.name = nd.name →
        ndk.args.map (findV s''.fwd) = nd.args.map (findV s''.fwd) →
        ∀ n, V i = some n → W k = some n := by
      intro k ndk hkres hndk hknm hkargs n hVi
      have hE := hfired n hVi
      obtain ⟨Ak, Bk, W₁, W₂, hAkB, hkAk, hOpW, hWkW₂, hW₁k, hWframe⟩ := hWsplit k ndk hkres hndk
      have hargsRepK := hInv.argsRep Ak k Bk hAkB ndk hndk
      have hbridge : ∀ a ∈ nd.args, ∀ va wa, valueOf V₁ a = some va →
          valueOf W₁ (findV s''.fwd a) = some wa →
          (findV s''.fwd a) ∈ ndk.args.map (findV s''.fwd) → wa = va := by
        intro a ha va wa hva hwa hmem
        obtain ⟨hFC, hAG⟩ := hopnd a ha va hva
        cases hfa : findV s''.fwd a with
        | constant c =>
          have h1 : va = c := hFC c hfa
          rw [hfa] at hwa
          have h2 : some c = some wa := hwa
          rw [h1]
          exact (Option.some.inj h2).symm
        | operation k' =>
          have hWk' := hAG k' hfa
          rw [hfa] at hmem
          rcases hargsRepK _ hmem with ⟨c, hcc⟩ | ⟨k'', hk'', hk''res, hk''A⟩
          · exact absurd hcc (by simp)
          · have hkk : k' = k'' := Value.operation.inj hk''
            have hfr := hWframe k'' hk''res hk''A
            rw [hfa] at hwa
            have h2 : W₁ k' = some wa := hwa
            rw [hkk] at h2 hWk'
            rw [hfr] at h2
            rw [hWk'] at h2
            exact (Option.some.inj h2).symm
      cases hE with
      | getarg hname hshape hpy =>
        rename_i idx
        rw [hraw] at hshape
        have hresl : nd.args.map (findV s''.fwd) = [.constant idx] := by
          rw [hshape]
          rfl
        rcases interpOp_cases hOpW with ⟨_, hnofire⟩ | ⟨m, hupdW, hEW⟩
        · exact absurd (fireShape_getarg (hknm.trans hname) (hkargs.trans hresl)) hnofire
        · have hWk : W k = some m := by rw [hWkW₂, hupdW]; simp
          cases hEW with
          | getarg hname' hshape' hpy' =>
            rename_i idx'

            have hxy := hshape'.symm.trans (hkargs.trans hresl)
            injection hxy with h1 _
            have h1' : idx' = idx := Value.constant.inj h1
            rw [h1'] at hpy'
            rw [hpy] at hpy'
            obtain rfl : n = m := Option.some.inj hpy'
            exact hWk
          | add hname' hshape' hwa hwb =>
            rw [hknm, hname] at hname'
            exact absurd hname' (by decide)
          | lshift hname' hshape' hwa hwb hls =>
            rw [hknm, hname] at hname'
            exact absurd hname' (by decide)
          | bitand hname' hshape' hwa hwb =>
            rw [hknm, hname] at hname'
            exact absurd hname' (by decide)
          | dummy hname' hshape' hwa =>
            rw [hknm, hname] at hname'
            exact absurd hname' (by decide)
      | add hname hshape hva hvb =>
        rename_i a b va vb
        rw [hraw] at hshape
        have hresl : nd.args.map (findV s''.fwd) = [findV s''.fwd a, findV s''.fwd b] := by
          rw [hshape]
          rfl
        rcases interpOp_cases hOpW with ⟨_, hnofire⟩ | ⟨m, hupdW, hEW⟩
        · exact absurd (fireShape_two (Or.inl (hknm.trans hname)) (hkargs.trans hresl)) hnofire
        · have hWk : W k = some m := by rw [hWkW₂, hupdW]; simp
          cases hEW with
          | add hname' hshape' hwa hwb =>
            rename_i x y wa wb

            have hxy := hshape'.symm.trans (hkargs.trans hresl)
            injection hxy with h1 h2
            injection h2 with h2 _
            rw [h1] at hwa
            rw [h2] at hwb
            have hwa' : wa = va := hbridge a (by rw [hshape]; exact List.mem_cons_self _ _)
              va wa hva hwa
              (by rw [hkargs, hresl]; exact List.mem_cons_self _ _)
            have hwb' : wb = vb := hbridge b
              (by rw [hshape]; exact List.mem_cons_of_mem _ (List.mem_cons_self _ _))
              vb wb hvb hwb
              (by rw [hkargs, hresl]; exact List.mem_cons_of_mem _ (List.mem_cons_self _ _))
            rw [hwa', hwb'] at hWk
            exact hWk
          | getarg hname' hshape' hpy' =>
            rw [hknm, hname] at hname'
            exact absurd hname' (by decide)
          | lshift hname' hshape' hwa hwb hls =>
            rw [hknm, hname] at hname'
            exact absurd hname' (by decide)
          | bitand hname' hshape' hwa hwb =>
            rw [hknm, hname] at hname'
            exact absurd hname' (by decide)
          | dummy hname' hshape' hwa =>
            rw [hknm, hname] at hname'
            exact absurd hname' (by decide)
      | lshift hname hshape hva hvb hls =>
        rename_i a b va vb
        rw [hraw] at hshape
        have hresl : nd.args.map (findV s''.fwd) = [findV s''.fwd a, findV s''.fwd b] := by
          rw [hshape]
          rfl
        rcases interpOp_cases hOpW with ⟨_, hnofire⟩ | ⟨m, hupdW, hEW⟩
        · exact absurd (fireShape_two (Or.inr (Or.inl (hknm.trans hname)))
            (hkargs.trans hresl)) hnofire
        · have hWk : W k = some m := by rw [hWkW₂, hupdW]; simp
          cases hEW with
          | lshift hname' hshape' hwa hwb hls' =>
            rename_i x y wa wb

            have hxy := hshape'.symm.trans (hkargs.trans hresl)
            injection hxy with h1 h2
            injection h2 with h2 _
            rw [h1] at hwa
            rw [h2] at hwb
            have hwa' : wa = va := hbridge a (by rw [hshape]; exact List.mem_cons_self _ _)
              va wa hva hwa
              (by rw [hkargs, hresl]; exact List.mem_cons_self _ _)
            have hwb' : wb = vb := hbridge b
              (by rw [hshape]; exact List.mem_cons_of_mem _ (List.mem_cons_self _ _))
              vb wb hvb hwb
              (by rw [hkargs, hresl]; exact List.mem_cons_of_mem _ (List.mem_cons_self _ _))
            rw [hwa', hwb'] at hls'
            rw [hls] at hls'
            obtain rfl : n = m := Option.some.inj hls'
            exact hWk
          | getarg hname' hshape' hpy' =>
            rw [hknm, hname] at hname'
            exact absurd hname' (by decide)
          | add hname' hshape' hwa hwb =>
            rw [hknm, hname] at hname'
            exact absurd hname' (by decide)
          | bitand hname' hshape' hwa hwb =>
            rw [hknm, hname] at hname'
            exact absurd hname' (by decide)
          | dummy hname' hshape' hwa =>
            rw [hknm, hname] at hname'
            exact absurd hname' (by decide)
      | bitand hname hshape hva hvb =>
        rename_i a b va vb
        rw [hraw] at hshape
        have hresl : nd.args.map (findV s''.fwd) = [findV s''.fwd a, findV s''.fwd b] := by
          rw [hshape]
          rfl
        rcases interpOp_cases hOpW with ⟨_, hnofire⟩ | ⟨m, hupdW, hEW⟩
        · exact absurd (fireShape_two (Or.inr (Or.inr (hknm.trans hname)))
            (hkargs.trans hresl)) hnofire
        · have hWk : W k = some m := by rw [hWkW₂, hupdW]; simp
          cases hEW with
          | bitand hname' hshape' hwa hwb =>
            rename_i x y wa wb

            have hxy := hshape'.symm.trans (hkargs.trans hresl)
            injection hxy with h1 h2
            injection h2 with h2 _
            rw [h1] at hwa
            rw [h2] at hwb
            have hwa' : wa = va := hbridge a (by rw [hshape]; exact List.mem_cons_self _ _)
              va wa hva hwa
              (by rw [hkargs, hresl]; exact List.mem_cons_self _ _)
            have hwb' : wb = vb := hbridge b
              (by rw [hshape]; exact List.mem_cons_of_mem _ (List.mem_cons_self _ _))
              vb wb hvb hwb
              (by rw [hkargs, hresl]; exact List.mem_cons_of_mem _ (List.mem_cons_self _ _))
            rw [hwa', hwb'] at hWk
            exact hWk
          | getarg hname' hshape' hpy' =>
            rw [hknm, hname] at hname'
            exact absurd hname' (by decide)
          | add hname' hshape' hwa hwb =>
            rw [hknm, hname] at hname'
            exact absurd hname' (by decide)
          | lshift hname' hshape' hwa hwb hls =>
            rw [hknm, hname] at hname'
            exact absurd hname' (by decide)
          | dummy hname' hshape' hwa =>
            rw [hknm, hname] at hname'
            exact absurd hname' (by decide)
      | dummy hname hshape hva =>
        rename_i a
        rw [hraw] at hshape
        have hresl : nd.args.map (findV s''.fwd) = [findV s''.fwd a] := by
          rw [hshape]
          rfl
        rcases interpOp_cases hOpW with ⟨_, hnofire⟩ | ⟨m, hupdW, hEW⟩
        · exact absurd (fireShape_dummy (hknm.trans hname) (hkargs.trans hresl)) hnofire
        · have hWk : W k = some m := by rw [hWkW₂, hupdW]; simp
          cases hEW with
          | dummy hname' hshape' hwa =>
            rename_i x

            have hxy := hshape'.symm.trans (hkargs.trans hresl)
            injection hxy with h1 _
            rw [h1] at hwa
            have hwa' : m = n := hbridge a (by rw [hshape]; exact List.mem_cons_self _ _)
              n m hva hwa
              (by rw [hkargs, hresl]; exact List.mem_cons_self _ _)
            rw [hwa'] at hWk
            exact hWk
          | getarg hname' hshape' hpy' =>
            rw [hknm, hname] at hname'
            exact absurd hname' (by decide)
          | add hname' hshape' hwa hwb =>
            rw [hknm, hname] at hname'
            exact absurd hname' (by decide)
          | lshift hname' hshape' hwa hwb hls =>
            rw [hknm, hname] at hname'
            exact absurd hname' (by decide)
          | bitand hname' hshape' hwa hwb =>
            rw [hknm, hname] at hname'
            exact absurd hname' (by decide)

    refine ⟨?_, ?_, ?_⟩
    · -- (a) forwarded-to-constant soundness
      intro c hfind n hVi
      cases hlook : lookupFwd s''.fwd i with
      | none =>
        rw [findV_op_none hInv.gf hlook] at hfind
        exact absurd hfind (by simp)
      | some t =>
        have hc6 := hInv.c6inv i hiblock nd hnd
        cases hcse : lookupCSE s''.cse (nd.name, nd.args.map (findV s''.fwd)) with
        | some p =>
          have hfp := hc6.1 p hcse
          rw [hfind] at hfp
          exact absurd hfp (by simp)
        | none =>
          obtain ⟨c₀, hts, hfc⟩ := hc6.2 hcse
          rw [hfind] at hfc
          obtain rfl : c = c₀ := Value.constant.inj hfc
          have hE := hfired n hVi
          have hargsRepI := hInv.argsRep A i B hAB nd hnd
          rcases trySimplify_some_inv hts with ⟨hnm, arg, p, hbarg, hparg, hpc⟩
            | ⟨hnm, l, r, hlr, hc⟩
          · cases hE with
            | getarg hname hshape hpy =>
              rw [hname] at hnm
              exact absurd hnm (by decide)
            | add hname hshape hva hvb =>
              rw [hname] at hnm
              exact absurd hnm (by decide)
            | lshift hname hshape hva hvb hls =>
              rw [hname] at hnm
              exact absurd hnm (by decide)
            | dummy hname hshape hva =>
              rw [hname] at hnm
              exact absurd hnm (by decide)
            | bitand hname hshape hva hvb =>
              rename_i a b va vb
              rw [hraw] at hshape
              have hresl : nd.args.map (findV s''.fwd)
                  = [findV s''.fwd a, findV s''.fwd b] := by
                rw [hshape]
                rfl
              rw [hresl] at hbarg
              obtain ⟨hFCa, hAGa⟩ := hopnd a (by rw [hshape]; exact List.mem_cons_self _ _)
                va hva
              obtain ⟨hFCb, hAGb⟩ := hopnd b
                (by rw [hshape]; exact List.mem_cons_of_mem _ (List.mem_cons_self _ _)) vb hvb
              rcases bitandArg_inv hbarg with ⟨harg, hfb1⟩ | ⟨harg, hfa1⟩
              · have hvb1 : vb = 1 := hFCb 1 hfb1
                have hva_par : (p = .even → va % 2 = 0) ∧ (p = .odd → va % 2 = 1) := by
                  cases hfa : findV s''.fwd a with
                  | constant c' =>
                    have hvac : va = c' := hFCa c' hfa
                    rw [harg, hfa] at hparg
                    have hpc' : Parity.const c' = p := Option.some.inj hparg
                    constructor
                    · intro hpe
                      have h2 := (parityOk_const c').1 (hpc'.trans hpe) c' rfl
                      rw [hvac]
                      exact h2
                    · intro hpo
                      have h2 := (parityOk_const c').2 (hpc'.trans hpo) c' rfl
                      rw [hvac]
                      exact h2
                  | operation k' =>
                    have hWk' := hAGa k' hfa
                    rw [harg, hfa] at hparg
                    have hpk : s''.parity k' = some p := hparg
                    have hmem : Value.operation k' ∈ nd.args.map (findV s''.fwd) := by
                      rw [hresl, hfa]
                      exact List.mem_cons_self _ _
                    rcases hargsRepI _ hmem with ⟨c'', hcc⟩ | ⟨k'', hk'', hk''res, hk''A⟩
                    · exact absurd hcc (by simp)
                    · have hkk : k' = k'' := Value.operation.inj hk''
                      obtain ⟨A₂, B₂, hA₂⟩ := List.append_of_mem hk''A
                      have hblockk : block = A₂ ++ k'' :: (B₂ ++ i :: B) := by
                        rw [hAB, hA₂]
                        simp
                      have hlenk : A₂.length < N := by
                        have h1 : A.length = A₂.length + (B₂.length + 1) := by
                          rw [hA₂]
                          simp
                        omega
                      have ihk := (ih A₂ k'' (B₂ ++ i :: B) hlenk hblockk).2.2 hk''res
                      have hok := ihk p (by rw [← hkk]; exact hpk)
                      rw [hkk] at hWk'
                      exact ⟨fun hpe => hok.1 hpe va hWk', fun hpo => hok.2 hpo va hWk'⟩
                rcases hpc with ⟨hpe, rfl⟩ | ⟨hpo, rfl⟩
                · have h1 := hva_par.1 hpe
                  rw [hvb1]
                  unfold pyAnd
                  exact land_one_of_even h1
                · have h1 := hva_par.2 hpo
                  rw [hvb1]
                  unfold pyAnd
                  exact land_one_of_odd h1
              · have hva1 : va = 1 := hFCa 1 hfa1
                have hvb_par : (p = .even → vb % 2 = 0) ∧ (p = .odd → vb % 2 = 1) := by
                  cases hfb : findV s''.fwd b with
                  | constant c' =>
                    have hvbc : vb = c' := hFCb c' hfb
                    rw [harg, hfb] at hparg
                    have hpc' : Parity.const c' = p := Option.some.inj hparg
                    constructor
                    · intro hpe
                      have h2 := (parityOk_const c').1 (hpc'.trans hpe) c' rfl
                      rw [hvbc]
                      exact h2
                    · intro hpo
                      have h2 := (parityOk_const c').2 (hpc'.trans hpo) c' rfl
                      rw [hvbc]
                      exact h2
                  | operation k' =>
                    have hWk' := hAGb k' hfb
                    rw [harg, hfb] at hparg
                    have hpk : s''.parity k' = some p := hparg
                    have hmem : Value.operation k' ∈ nd.args.map (findV s''.fwd) := by
                      rw [hresl, hfb]
                      exact List.mem_cons_of_mem _ (List.mem_cons_self _ _)
                    rcases hargsRepI _ hmem with ⟨c'', hcc⟩ | ⟨k'', hk'', hk''res, hk''A⟩
                    · exact absurd hcc (by simp)
                    · have hkk : k' = k'' := Value.operation.inj hk''
                      obtain ⟨A₂, B₂, hA₂⟩ := List.append_of_mem hk''A
                      have hblockk : block = A₂ ++ k'' :: (B₂ ++ i :: B) := by
                        rw [hAB, hA₂]
                        simp
                      have hlenk : A₂.length < N := by
                        have h1 : A.length = A₂.length + (B₂.length + 1) := by
                          rw [hA₂]
                          simp
                        omega
                      have ihk := (ih A₂ k'' (B₂ ++ i :: B) hlenk hblockk).2.2 hk''res
                      have hok := ihk p (by rw [← hkk]; exact hpk)
                      rw [hkk] at hWk'
                      exact ⟨fun hpe => hok.1 hpe vb hWk', fun hpo => hok.2 hpo vb hWk'⟩
                rcases hpc with ⟨hpe, rfl⟩ | ⟨hpo, rfl⟩
                · have h1 := hvb_par.1 hpe
                  rw [hva1]
                  unfold pyAnd
                  rw [land_comm_one]
                  exact land_one_of_even h1
                · have h1 := hvb_par.2 hpo
                  rw [hva1]
                  unfold pyAnd
                  rw [land_comm_one]
                  exact land_one_of_odd h1
          · cases hE with
            | getarg hname hshape hpy =>
              rw [hname] at hnm
              exact absurd hnm (by decide)
            | lshift hname hshape hva hvb hls =>
              rw [hname] at hnm
              exact absurd hnm (by decide)
            | bitand hname hshape hva hvb =>
              rw [hname] at hnm
              exact absurd hnm (by decide)
            | dummy hname hshape hva =>
              rw [hname] at hnm
              exact absurd hnm (by decide)
            | add hname hshape hva hvb =>
              rename_i a b va vb
              rw [hraw] at hshape
              have hresl : nd.args.map (findV s''.fwd)
                  = [findV s''.fwd a, findV s''.fwd b] := by
                rw [hshape]
                rfl
              have hx := hlr.symm.trans hresl
              injection hx with h1 h2
              injection h2 with h2 _
              obtain ⟨hFCa, _⟩ := hopnd a (by rw [hshape]; exact List.mem_cons_self _ _) va hva
              obtain ⟨hFCb, _⟩ := hopnd b
                (by rw [hshape]; exact List.mem_cons_of_mem _ (List.mem_cons_self _ _)) vb hvb
              have hva' : va = l := hFCa l h1.symm
              have hvb' : vb = r := hFCb r h2.symm
              rw [hva', hvb', hc]
    · -- (b) forwarded-to-operation agreement
      intro k hfind n hVi
      cases hlook : lookupFwd s''.fwd i with
      | none =>
        rw [findV_op_none hInv.gf hlook] at hfind
        have hki : i = k := Value.operation.inj hfind
        have hires := hInv.memResult i hiblock hlook
        rw [← hki]
        exact hcore i nd hires hnd rfl rfl n hVi
      | some t =>
        have hc6 := hInv.c6inv i hiblock nd hnd
        cases hcse : lookupCSE s''.cse (nd.name, nd.args.map (findV s''.fwd)) with
        | some p =>
          have hfp := hc6.1 p hcse
          rw [hfind] at hfp
          have hkp : k = p := Value.operation.inj hfp
          obtain ⟨hpres, hpkey⟩ := hInv.cseSound _ p hcse
          obtain ⟨ndp, hndp, hnmp, hargp⟩ := opKey_some hpkey
          rw [hkp]
          exact hcore p ndp hpres hndp hnmp hargp n hVi
        | none =>
          obtain ⟨c₀, hts, hfc⟩ := hc6.2 hcse
          rw [hfind] at hfc
          exact absurd hfc (by simp)
    · -- (c) parity soundness for emitted instructions
      intro hires p hp
      obtain ⟨nd₂, ps, p₂, hnd₂, hps, htr, hp₂⟩ := hInv.parityRes i hires
      have hnd2eq : nd₂ = nd := Option.some.inj (hnd₂.symm.trans hnd)
      have hppeq : p₂ = p := Option.some.inj (hp₂.symm.trans hp)
      rw [hnd2eq] at hps htr
      obtain ⟨Ak, Bk, W₁, W₂, hAkB, hkAk, hOpW, hWkW₂, hW₁k, hWframe⟩ := hWsplit i nd hires hnd
      obtain ⟨hAkA, hBkB⟩ := nodup_mid_decomp (hAB.symm.trans hAkB) hiA hkAk
      have hopW : ∀ x ∈ nd.args.map (findV s''.fwd), ∀ px wx,
          parityOf s''.parity x = some px → valueOf W₁ x = some wx →
          parityOk px (some wx) := by
        intro x hx px wx hpx hwx
        cases x with
        | constant c =>
          have h1 : some (Parity.const c) = some px := hpx
          obtain rfl : Parity.const c = px := Option.some.inj h1
          have h2 : some c = some wx := hwx
          obtain rfl : c = wx := Option.some.inj h2
          exact parityOk_const c
        | operation k' =>
          have hpk : s''.parity k' = some px := hpx
          rcases hInv.argsRep A i B hAB nd hnd _ hx with ⟨c'', hcc⟩ | ⟨k'', hk'', hk''res, hk''A⟩
          · exact absurd hcc (by simp)
          · have hkk : k' = k'' := Value.operation.inj hk''
            have hWfr : W₁ k' = W k' := by
              rw [hkk]
              exact hWframe k'' hk''res (hAkA ▸ hk''A)
            have hWk' : W k' = some wx := by
              rw [← hWfr]
              exact hwx
            obtain ⟨A₂, B₂, hA₂⟩ := List.append_of_mem hk''A
            have hblockk : block = A₂ ++ k'' :: (B₂ ++ i :: B) := by
              rw [hAB, hA₂]
              simp
            have hlenk : A₂.length < N := by
              have h1 : A.length = A₂.length + (B₂.length + 1) := by
                rw [hA₂]
                simp
              omega
            have ihk := (ih A₂ k'' (B₂ ++ i :: B) hlenk hblockk).2.2 hk''res
            have hok := ihk px (by rw [← hkk]; exact hpk)
            rw [hkk] at hWk'
            exact hWk' ▸ hok
      rcases interpOp_cases hOpW with ⟨hW₂eq, _⟩ | ⟨m, hupdW, hEW⟩
      · have hWi : W i = none := by rw [hWkW₂, hW₂eq, hW₁k]
        rw [hWi, ← hppeq]
        exact parityOk_none p₂
      · have hWi : W i = some m := by
          rw [hWkW₂, hupdW]
          simp
        rw [hWi, ← hppeq]
        rcases transfer_inv htr with ⟨hnm, hpt⟩ | ⟨hnm, hpt⟩ | ⟨hnm, pa, pb, hpsl, hpt⟩
          | ⟨hnm, pa, pb, hpsl, hpt⟩
        · rw [hpt]
          exact parityOk_top _
        · rw [hpt]
          exact parityOk_top _
        · cases hEW with
          | getarg hname hshape hpy =>
            rw [hname] at hnm
            exact absurd hnm (by decide)
          | lshift hname hshape hwa hwb hls =>
            rw [hname] at hnm
            exact absurd hnm (by decide)
          | bitand hname hshape hwa hwb =>
            rw [hname] at hnm
            exact absurd hnm (by decide)
          | dummy hname hshape hwa =>
            rw [hname] at hnm
            exact absurd hnm (by decide)
          | add hname hshape hwa hwb =>
            rename_i x y wa wb
            rw [hshape] at hps
            obtain ⟨pa', pb', hpseq, hpx, hpy⟩ := mapM_two_inv hps
            have hinj := hpsl.symm.trans hpseq
            injection hinj with h1 h2
            injection h2 with h2 _
            have hokx := hopW x (by rw [hshape]; exact List.mem_cons_self _ _) pa' wa hpx hwa
            have hoky := hopW y
              (by rw [hshape]; exact List.mem_cons_of_mem _ (List.mem_cons_self _ _)) pb' wb hpy hwb
            rw [hpt, h1, h2]
            exact parityOk_add hokx hoky
        · cases hEW with
          | getarg hname hshape hpy =>
            rw [hname] at hnm
            exact absurd hnm (by decide)
          | add hname hshape hwa hwb =>
            rw [hname] at hnm
            exact absurd hnm (by decide)
          | bitand hname hshape hwa hwb =>
            rw [hname] at hnm
            exact absurd hnm (by decide)
          | dummy hname hshape hwa =>
            rw [hname] at hnm
            exact absurd hnm (by decide)
          | lshift hname hshape hwa hwb hls =>
            rename_i x y wa wb
            rw [hshape] at hps
            obtain ⟨pa', pb', hpseq, hpx, hpy⟩ := mapM_two_inv hps
            have hinj := hpsl.symm.trans hpseq
            injection hinj with h1 h2
            injection h2 with h2 _
            have hoky := hopW y
              (by rw [hshape]; exact List.mem_cons_of_mem _ (List.mem_cons_self _ _)) pb' wb hpy hwb
            unfold pyLshift at hls
            by_cases hneg : wb < 0
            · rw [if_pos hneg] at hls
              exact absurd hls (by simp)
            · rw [if_neg hneg] at hls
              have hmeq : m = wa * 2 ^ wb.toNat := (Option.some.inj hls).symm
              rw [hpt, h1, h2]
              exact parityOk_lshift hoky hneg hmeq

/-- Claim C1 (amended): the optimizer preserves the final value whenever the
last instruction survives.  If `block` is valid SSA, `simplify` succeeds
producing `(res, f')`, the last instruction `L` of `block` is not forwarded,
and both the original interpreter run and the optimized run (the result
block under forwarding `f'`) succeed, then they return the same value.  (The
two failure modes of the unamended claim are exhibited in
`interp_simplify_claim_false`: a forwarded last instruction changes the
returned value, and folding a `getarg` index operand to an out-of-range
constant makes the optimized run raise where the original succeeded.) -/
theorem interp_simplify_preserves_last_value {heap : Heap} {block res : List Nat}
    {f' : Fwd} {L : Nat} {args : List Int} {v w : Int}
    (hssa : ssaValid heap block = true)
    (hsimp : simplify heap [] block = some (res, f'))
    (hlast : block.getLast? = some L)
    (hkept : lookupFwd f' L = none)
    (horig : interp heap [] block args = some v)
    (hopt : interp heap f' res args = some w) : v = w := by
  obtain ⟨s'', hrun, hres, hfwd, hInv⟩ := simplify_inv hssa hsimp
  have hkept' : lookupFwd s''.fwd L = none := by rw [hfwd]; exact hkept
  obtain ⟨V, last, hV, hlast', hVv⟩ := interp_parts horig
  obtain ⟨W, lastW, hW, hlastW, hWw⟩ := interp_parts hopt
  have hlastL : last = L := Option.some.inj (hlast'.symm.trans hlast)
  rw [hlastL] at hVv
  obtain ⟨X, hXL⟩ := List.getLast?_eq_some_iff.mp hlast
  rw [← hfwd, ← hres] at hW
  have hLblock : L ∈ block := by
    rw [hXL]
    exact List.mem_append.mpr (Or.inr (List.mem_cons_self _ _))
  have hLres : L ∈ s''.result := hInv.memResult L hLblock hkept'
  have hmain := sem_inv hssa hInv hV hW (X.length + 1) X L [] (by omega) hXL
  have hWL : W L = some v :=
    hmain.2.1 L (findV_op_none hInv.gf hkept') v hVv
  have hresL : s''.result.getLast? = some L := by
    rw [hInv.resFilter, hXL, List.filter_append]
    have hfL : List.filter (fun i => (lookupFwd s''.fwd i).isNone) [L] = [L] := by
      simp [hkept']
    rw [hfL]
    exact List.getLast?_concat _
  have hlastWL : lastW = L := by
    rw [← hres] at hlastW
    exact Option.some.inj (hlastW.symm.trans hresL)
  rw [hlastWL, hWL] at hWw
  exact Option.some.inj hWw

/-- Witness for `interp_simplify_preserves_last_value` at the example block
with arguments `[0, 0]`: both runs return `0`. -/
theorem interp_simplify_preserves_last_value_witness :
    ssaValid exampleHeap exampleBlock = true
    ∧ simplify exampleHeap [] exampleBlock = some (exampleResult, exampleFwd)
    ∧ exampleBlock.getLast? = some 6
    ∧ lookupFwd exampleFwd 6 = none
    ∧ interp exampleHeap [] exampleBlock [0, 0] = some 0
    ∧ interp exampleHeap exampleFwd exampleResult [0, 0] = some 0
    ∧ (0 : Int) = 0 :=
  ⟨by decide, rfl, rfl, rfl, rfl, rfl,
    @interp_simplify_preserves_last_value exampleHeap exampleBlock exampleResult exampleFwd
      6 [0, 0] 0 0 (by decide) rfl rfl rfl rfl rfl⟩
